import Mathlib

/-!
Verification development for the cargo-routes dependency visualizer
(`src/main.rs`).  The program builds the transitive dependency graph of a
package — either from a pre-loaded adjacency file ("test" mode) or from a
package registry ("remote" mode) — and renders it as an ASCII tree.

The embedding below translates the Rust functions into Lean:

* `load_test_graph`   — parsing of the `name: dep dep` adjacency file;
* `build_test_graph`  — the iterative worklist traversal over the file data;
* `fetch_latest_version_cached`, `fetch_dependencies_cached`,
  `build_real_graph` — the registry-backed traversal, with the two caches;
  the registry's HTTP surface is modelled as finite response tables, and
  the observable effects (HTTP requests issued, warnings written to
  stderr) are made explicit as logs;
* `print_ascii_tree`  — the recursive tree renderer with its seen-set.

The Rust loops are written with an explicit fuel parameter; lemmas
`buildTestFuel_some`, `buildRealFuel_some` and `renderFuel_isSome` prove
that the fuel chosen by the top-level wrappers always suffices, so the
wrappers compute exactly what the unbounded loops compute.
String scanning helpers (`trim`, `split_once`, `split_whitespace`,
`lines`) are translated to explicit recursions over character lists.
-/

/-! ## Character-list string helpers (models of the `str` methods used) -/

/-- Split a character list at every character satisfying `p`
(model of splitting used by `str::lines` / `str::split_whitespace`);
always returns at least one (possibly empty) segment. -/
def splitPred (p : Char → Bool) : List Char → List (List Char)
  | [] => [[]]
  | c :: rest =>
    match splitPred p rest with
    | [] => [[c]]
    | cur :: parts => if p c then [] :: cur :: parts else (c :: cur) :: parts

/-- Model of `str::split_once(sep)`: split at the first occurrence of `sep`. -/
def splitOnceChar (sep : Char) : List Char → Option (List Char × List Char)
  | [] => none
  | c :: rest =>
    if c = sep then some ([], rest)
    else
      match splitOnceChar sep rest with
      | none => none
      | some (a, b) => some (c :: a, b)

/-- Model of `str::trim`: drop whitespace from both ends. -/
def trimStr (s : String) : String :=
  (((s.toList.dropWhile Char.isWhitespace).reverse.dropWhile Char.isWhitespace).reverse).asString

/-- Model of `str::split_once(':')`, on strings. -/
def splitOnceColon (s : String) : Option (String × String) :=
  match splitOnceChar ':' s.toList with
  | none => none
  | some (a, b) => some (a.asString, b.asString)

/-- Model of `str::lines`: split on newline, strip a trailing carriage
return from each line, and drop the final empty segment produced by a
trailing newline. -/
def linesOf (s : String) : List String :=
  let parts := splitPred (fun c => c == '\n') s.toList
  let parts := if parts.getLast? = some [] then parts.dropLast else parts
  parts.map fun l => (if l.getLast? = some '\r' then l.dropLast else l).asString

/-- Model of `str::split_whitespace` followed by the source's
`.map(trim).filter(!is_empty)` pipeline. -/
def splitWhitespaceOf (s : String) : List String :=
  (((splitPred Char.isWhitespace s.toList).map List.asString).map trimStr).filter
    (fun t => t ≠ "")

/-! ## Graph representation -/

/-- `GraphStore`: package name ↦ ordered list of direct dependency names.
`HashMap<String, Vec<String>>` in the source; modelled as an association
list in insertion order (the builders only ever insert fresh keys). -/
abbrev Store := List (String × List String)

/-- Association-list lookup, first match wins (model of `HashMap::get`). -/
def assocFind {κ α : Type} [DecidableEq κ] (k : κ) : List (κ × α) → Option α
  | [] => none
  | (k1, v) :: rest => if k1 = k then some v else assocFind k rest

/-- `graph_raw.get(&node).cloned().unwrap_or_default()` from
`build_test_graph`: a missing key resolves to the empty list. -/
def resolve (g : Store) (n : String) : List String :=
  (assocFind n g).getD []

/-- The depth-bound test shared by both builders:
`if let Some(max) = max_depth { if depth >= max { continue; } }`. -/
def stopAtDepth (md : Option Nat) (depth : Nat) : Bool :=
  match md with
  | some m => decide (m ≤ depth)
  | none => false

/-- `HashMap::insert`: replace the value of an existing key, else append. -/
def insertAssoc {α : Type} (g : List (String × α)) (k : String) (v : α) :
    List (String × α) :=
  if (g.map (·.1)).contains k then
    g.map fun p => if p.1 = k then (k, v) else p
  else g ++ [(k, v)]

/-! ## `load_test_graph` -/

/-- The `FormatError` message of `load_test_graph`
(`"Ошибка формата в строке {lineno+1}: {line}"`). -/
def formatErrMsg (oneBasedLine : Nat) (trimmedLine : String) : String :=
  "Ошибка формата в строке " ++ toString oneBasedLine ++ ": " ++ trimmedLine

/-- The body of `load_test_graph`'s `for (lineno, line) in raw.lines().enumerate()`
loop, over already enumerated (0-based) lines. -/
def loadLines (g : Store) : List (Nat × String) → Except String Store
  | [] => .ok g
  | (i, l) :: rest =>
    let line := trimStr l
    if line = "" then loadLines g rest
    else
      match splitOnceColon line with
      | some (pkg, deps) =>
          loadLines (insertAssoc g (trimStr pkg) (splitWhitespaceOf deps)) rest
      | none => .error (formatErrMsg (i + 1) line)

/-- `load_test_graph`, over the contents of the file. -/
def load_test_graph (raw : String) : Except String Store :=
  loadLines [] (linesOf raw).enum

/-! ## `build_test_graph` -/

/-- The `while let Some((node, depth)) = stack.pop()` loop of
`build_test_graph`, with an explicit fuel.  The Lean list models the Rust
`Vec` stack with its head as the stack top, so the source's
`for dep in deps { stack.push((dep, depth + 1)) }` becomes pushing the
reversed dependency list. -/
def buildTestFuel (g : Store) (md : Option Nat) :
    Nat → List (String × Nat) → List String → Store → Option Store
  | 0, _, _, _ => none
  | _ + 1, [], _, store => some store
  | fuel + 1, (node, depth) :: rest, visited, store =>
    if node ∈ visited then
      buildTestFuel g md fuel rest visited store
    else
      let deps := resolve g node
      let visited1 := node :: visited
      let store1 := store ++ [(node, deps)]
      if stopAtDepth md depth then
        buildTestFuel g md fuel rest visited1 store1
      else
        buildTestFuel g md fuel
          ((deps.map fun d => (d, depth + 1)).reverse ++ rest) visited1 store1

/-- The longest dependency list recorded in the raw graph; bounds how much
one iteration can grow the stack. -/
def maxDepLen (g : Store) : Nat :=
  g.foldr (fun p m => max p.2.length m) 0

/-- Fuel that always suffices for `buildTestFuel` (proved below). -/
def testFuelBound (g : Store) : Nat :=
  (g.length + 1) * (maxDepLen g + 1) + 1

/-- `build_test_graph`: seed the stack with `(start, 0)`, run the loop. -/
def build_test_graph (start : String) (g : Store) (md : Option Nat) : Store :=
  (buildTestFuel g md (testFuelBound g) [(start, 0)] [] []).getD []

/-! ## Reachability along direct-dependency edges -/

/-- One direct-dependency edge in a `Store`. -/
def DependsOn (g : Store) (a b : String) : Prop := b ∈ resolve g a

/-- A graph is acyclic when no package depends on itself transitively. -/
def Acyclic (g : Store) : Prop := ∀ n, ¬ Relation.TransGen (DependsOn g) n n

/-- Reachability from `start` by following direct-dependency edges. -/
def ReachableFrom (g : Store) (start n : String) : Prop :=
  Relation.ReflTransGen (DependsOn g) start n

/-! ## Termination of the test builder -/

/-- The keys of the raw graph, as a finite set. -/
def keysFinset (g : Store) : Finset String := (g.map (·.1)).toFinset

/-- The loop measure: unvisited keys weighted by the largest possible
push, plus the stack size. -/
def measureT (g : Store) (stack : List (String × Nat)) (visited : List String) : Nat :=
  (keysFinset g \ visited.toFinset).card * (maxDepLen g + 1) + stack.length

/-! ## Remote builder: registry model -/

/-- One dependency record of the crates.io dependencies payload
(`crate_id`, optional `kind`, `optional` flag). -/
structure RegDep where
  crate_id : String
  kind : Option String
  optional : Bool

deriving DecidableEq

/-- The registry's HTTP surface, modelled as finite response tables:
an absent row stands for a failed transport/HTTP exchange (which the
source collapses into an error string, exactly like a non-2xx status or
a JSON parse failure), and an `.error` row stands for any of those
failures with its message. -/
structure Registry where
  versionsTable : List (String × Except String (List String))
  depsTable : List ((String × String) × Except String (List RegDep))

/-- Outcome of `GET /crates/{name}/versions` followed by status check and
JSON parsing; the payload is the ordered list of version numbers. -/
def fetchVersionsApi (r : Registry) (pkg : String) : Except String (List String) :=
  (assocFind pkg r.versionsTable).getD
    (.error ("Ошибка HTTP при запросе версий " ++ pkg))

/-- Outcome of `GET /crates/{name}/{version}/dependencies` followed by
status check and JSON parsing. -/
def fetchDepsApi (r : Registry) (pkg ver : String) : Except String (List RegDep) :=
  (assocFind (pkg, ver) r.depsTable).getD
    (.error ("Ошибка HTTP при запросе зависимостей " ++ pkg ++ " " ++ ver))

/-- The `NotFoundError` message of `fetch_latest_version_cached`. -/
def notFoundMsg (pkg : String) : String :=
  "Не найдены версии для пакета " ++ pkg

/-- The warning `build_real_graph` writes to stderr when a version lookup
fails. -/
def versionWarnMsg (dep e : String) : String :=
  "Предупреждение: не удалось получить версию для '" ++ dep ++ "': " ++ e

/-- The dev-kind filter and projection applied to a dependencies payload:
`.filter(|dep| dep.kind.as_deref() != Some("dev")).map(|d| d.crate_id)`. -/
def depNamesOfList (ds : List RegDep) : List String :=
  (ds.filter fun d => d.kind ≠ some "dev").map (·.crate_id)

/-- `fetch_latest_version_cached`: consult the cache, else call the
versions endpoint and take the first listed version; an empty version
list is the (recoverable) `NotFoundError`.  Returns the result, the
updated cache, and the list of packages for which an actual HTTP request
was issued. -/
def fetch_latest_version_cached (r : Registry) (pkg : String)
    (cache : List (String × String)) :
    Except String String × List (String × String) × List String :=
  match assocFind pkg cache with
  | some v => (.ok v, cache, [])
  | none =>
    match fetchVersionsApi r pkg with
    | .error e => (.error e, cache, [pkg])
    | .ok vs =>
      match vs with
      | [] => (.error (notFoundMsg pkg), cache, [pkg])
      | v :: _ => (.ok v, cache ++ [(pkg, v)], [pkg])

/-- `fetch_dependencies_cached`: consult the cache under the key
`"{pkg}:{version}"`, else call the dependencies endpoint, filter out
dev-kind dependencies, and cache the names.  Returns the result, the
updated cache, and the list of `(pkg, version)` pairs for which an actual
HTTP request was issued. -/
def fetch_dependencies_cached (r : Registry) (pkg ver : String)
    (cache : List (String × List String)) :
    Except String (List String) × List (String × List String) × List (String × String) :=
  let key := pkg ++ ":" ++ ver
  match assocFind key cache with
  | some v => (.ok v, cache, [])
  | none =>
    match fetchDepsApi r pkg ver with
    | .error e => (.error e, cache, [(pkg, ver)])
    | .ok ds =>
      let names := depNamesOfList ds
      (.ok names, cache ++ [(key, names)], [(pkg, ver)])

/-- The observable effects of one remote build: the dependency-listing
requests issued, the version-listing requests issued, and the warnings
written to stderr. -/
structure BuildLog where
  depsRequests : List (String × String)
  versionRequests : List String
  warnings : List String

/-- The `for dep in deps { match fetch_latest_version_cached(...) ... }`
loop of `build_real_graph`: resolve each discovered dependency to its
latest version; a successful lookup yields a stack entry at `depth + 1`,
a failed lookup yields a warning and no stack entry.  Returns the new
stack entries in dependency order, the updated version cache, the version
requests issued, and the warnings. -/
def pushDeps (r : Registry) (depth1 : Nat) :
    List String → List (String × String) →
    List (String × String × Nat) × List (String × String) × List String × List String
  | [], lc => ([], lc, [], [])
  | d :: rest, lc =>
    match fetch_latest_version_cached r d lc with
    | (.ok v, lc1, reqs) =>
      let (es, lc2, rs, ws) := pushDeps r depth1 rest lc1
      ((d, v, depth1) :: es, lc2, reqs ++ rs, ws)
    | (.error e, lc1, reqs) =>
      let (es, lc2, rs, ws) := pushDeps r depth1 rest lc1
      (es, lc2, reqs ++ rs, versionWarnMsg d e :: ws)

/-- The `while let Some((node, ver, depth)) = stack.pop()` loop of
`build_real_graph`, with an explicit fuel.  A dependency-listing failure
aborts the whole build (`?` in the source); version-lookup failures are
handled inside `pushDeps`. -/
def buildRealFuel (r : Registry) (md : Option Nat) :
    Nat → List (String × String × Nat) → List String → Store →
    List (String × String) → List (String × List String) → BuildLog →
    Option (Except String (Store × BuildLog))
  | 0, _, _, _, _, _, _ => none
  | _ + 1, [], _, store, _, _, log => some (.ok (store, log))
  | fuel + 1, (node, ver, depth) :: rest, visited, store, lc, dc, log =>
    if node ∈ visited then
      buildRealFuel r md fuel rest visited store lc dc log
    else
      match fetch_dependencies_cached r node ver dc with
      | (.error e, _, _) => some (.error e)
      | (.ok deps, dc1, dreqs) =>
        let visited1 := node :: visited
        let store1 := store ++ [(node, deps)]
        let log1 : BuildLog :=
          { log with depsRequests := log.depsRequests ++ dreqs }
        if stopAtDepth md depth then
          buildRealFuel r md fuel rest visited1 store1 lc dc1 log1
        else
          let (es, lc1, vreqs, warns) := pushDeps r (depth + 1) deps lc
          buildRealFuel r md fuel (es.reverse ++ rest) visited1 store1 lc1 dc1
            { log1 with
                versionRequests := log1.versionRequests ++ vreqs
                warnings := log1.warnings ++ warns }

/-- Every dependency name the registry can ever report. -/
def regNames (r : Registry) : List String :=
  r.depsTable.flatMap fun e =>
    match e.2 with
    | .ok ds => ds.map (·.crate_id)
    | .error _ => []

/-- The longest dependency list the registry can ever report. -/
def regMaxDeps (r : Registry) : Nat :=
  r.depsTable.foldr
    (fun e m =>
      max (match e.2 with
           | .ok ds => ds.length
           | .error _ => 0) m) 0

/-- Fuel that always suffices for `buildRealFuel` (proved below). -/
def realFuelBound (r : Registry) (root : String) : Nat :=
  (insert root (regNames r).toFinset).card * (regMaxDeps r + 1) + 2

/-- `build_real_graph`: seed the stack with `(pkg, version, 0)` and empty
visited set, caches and logs, then run the loop. -/
def build_real_graph (r : Registry) (pkg ver : String) (md : Option Nat) :
    Except String (Store × BuildLog) :=
  (buildRealFuel r md (realFuelBound r pkg) [(pkg, ver, 0)] [] [] [] []
      ⟨[], [], []⟩).getD (.error "")

/-! ## Effective dependency graph explored by the remote builder -/

/-- The latest version of a package: the first entry of a successful
versions response. -/
def latestOf (r : Registry) (pkg : String) : Option String :=
  match fetchVersionsApi r pkg with
  | .ok (v :: _) => some v
  | _ => none

/-- The dependency names a successful dependencies response yields. -/
def depNamesOf (r : Registry) (pkg ver : String) : List String :=
  match fetchDepsApi r pkg ver with
  | .ok ds => depNamesOfList ds
  | .error _ => []

/-- The version at which the remote build expands a package: the
configured version for the root, the latest version otherwise. -/
def effVer (r : Registry) (root rootVer n : String) : String :=
  if n = root then rootVer else (latestOf r n).getD ""

/-- The direct-dependency names of a package at the version the remote
build expands it. -/
def effDeps (r : Registry) (root rootVer n : String) : List String :=
  depNamesOf r n (effVer r root rootVer n)

/-- One effective edge of the remote build. -/
def RDependsOn (r : Registry) (root rootVer : String) (a b : String) : Prop :=
  b ∈ effDeps r root rootVer a

/-- Reachability in the effective remote graph. -/
def RReachable (r : Registry) (root rootVer n : String) : Prop :=
  Relation.ReflTransGen (RDependsOn r root rootVer) root n

/-- A string free of `':'`; package names and version numbers on a real
registry satisfy this, and it makes the `"{pkg}:{version}"` cache key
unambiguous. -/
def noColon (s : String) : Prop := ':' ∉ s.toList

instance (s : String) : Decidable (noColon s) := by
  unfold noColon
  infer_instance

/-! ## `print_ascii_tree` -/

/-- The `for (i, child) in children.iter().enumerate()` loop of
`print_ascii_tree`, abstracted over the recursive call `f`: render each
child, threading the seen-set; a child is `last` exactly when no further
children follow. -/
def renderKidsWith
    (f : String → String → Bool → List String → Nat → Option Nat →
      Option (List String × List String)) :
    List String → String → List String → Nat → Option Nat →
    Option (List String × List String)
  | [], _, seen, _, _ => some ([], seen)
  | c :: cs, newPre, seen, depth1, md =>
    match f c newPre cs.isEmpty seen depth1 md with
    | none => none
    | some (ls1, seen1) =>
      match renderKidsWith f cs newPre seen1 depth1 md with
      | none => none
      | some (ls2, seen2) => some (ls1 ++ ls2, seen2)

/-- One call of `print_ascii_tree`, with an explicit fuel bounding the
recursion depth.  Returns the printed lines and the updated seen-set.
The connector, cycle and truncation lines mirror the source's `println!`
calls literally. -/
def renderFuel (g : Store) :
    Nat → String → String → Bool → List String → Nat → Option Nat →
    Option (List String × List String)
  | 0, _, _, _, _, _, _ => none
  | fuel + 1, node, pre, last, seen, depth, md =>
    let line := pre ++ (if last then "└── " else "├── ") ++ node
    if node ∈ seen then
      some ([line, pre ++ "    (цикл: узел " ++ node ++ ")"], seen)
    else
      let seen1 := node :: seen
      if stopAtDepth md depth then
        match assocFind node g with
        | some children =>
          if children.isEmpty then some ([line], seen1)
          else some ([line, pre ++ "    ... (ограничение глубины)"], seen1)
        | none => some ([line], seen1)
      else
        match assocFind node g with
        | none => some ([line], seen1)
        | some children =>
          let newPre := if last then pre ++ "    " else pre ++ "│   "
          match renderKidsWith
              (fun n p l s d m => renderFuel g fuel n p l s d m)
              children newPre seen1 (depth + 1) md with
          | none => none
          | some (ls, seen2) => some (line :: ls, seen2)

/-- Fuel that always suffices for `renderFuel` (proved below). -/
def renderFuelBound (g : Store) : Nat := g.length + 1

/-- `print_ascii_tree`: run the renderer with sufficient fuel. -/
def print_ascii_tree (g : Store) (node pre : String) (last : Bool)
    (seen : List String) (depth : Nat) (md : Option Nat) :
    List String × List String :=
  (renderFuel g (renderFuelBound g) node pre last seen depth md).getD ([], seen)

/-- The diamond dependency graph from the spec
(`A: B C`, `B: D`, `C: D`, `D:`). -/
def diamondGraph : Store :=
  [("A", ["B", "C"]), ("B", ["D"]), ("C", ["D"]), ("D", [])]

/-- A registry serving the same diamond shape in remote mode. -/
def diamondRegistry : Registry :=
  { versionsTable := [("B", .ok ["1"]), ("C", .ok ["1"]), ("D", .ok ["1"])]
    depsTable :=
      [(("A", "0"), .ok [⟨"B", none, false⟩, ⟨"C", none, false⟩])
      , (("B", "1"), .ok [⟨"D", none, false⟩])
      , (("C", "1"), .ok [⟨"D", none, false⟩])
      , (("D", "1"), .ok [])] }

/-- A rank function witnessing that the diamond has no cycles. -/
def diamondRank (n : String) : Nat :=
  if n = "A" then 3
  else if n = "B" then 2
  else if n = "C" then 2
  else if n = "D" then 1
  else 0

deriving instance DecidableEq for Except

deriving instance DecidableEq for BuildLog

/-- The chain registry `A: B`, `B: C`, `C: D` used for the depth-bound
example in remote mode. -/
def chainRegistry : Registry :=
  { versionsTable := [("B", .ok ["1"]), ("C", .ok ["1"]), ("D", .ok ["1"])]
    depsTable :=
      [(("A", "0"), .ok [⟨"B", none, false⟩])
      , (("B", "1"), .ok [⟨"C", none, false⟩])
      , (("C", "1"), .ok [⟨"D", none, false⟩])
      , (("D", "1"), .ok [])] }

/-- The registry of the warning scenario: `R`'s dependencies are
`X Y Z`, `Y` has an empty version listing, `X` and `Z` resolve. -/
def warnRegistry : Registry :=
  { versionsTable := [("X", .ok ["1.0"]), ("Y", .ok []), ("Z", .ok ["2.0"])]
    depsTable :=
      [(("R", "1"), .ok [⟨"X", none, false⟩, ⟨"Y", none, false⟩, ⟨"Z", none, false⟩])
      , (("X", "1.0"), .ok [])
      , (("Z", "2.0"), .ok [])] }

/-- A registry whose dependency-listing endpoint fails for a non-root
node `S`. -/
def fatalRegistry : Registry :=
  { versionsTable := [("S", .ok ["2"])]
    depsTable :=
      [(("R", "1"), .ok [⟨"S", none, false⟩])
      , (("S", "2"), .error "crates.io вернул статус 500 для S/2")] }

/-- A reflexive-transitive chain stays inside any set that contains its
start and is closed under the step relation. -/
lemma rtg_mem_of_closed {α : Type} {rel : α → α → Prop} {start n : α} {S : List α}
    (hs : start ∈ S) (hcl : ∀ a ∈ S, ∀ b, rel a b → b ∈ S)
    (h : Relation.ReflTransGen rel start n) : n ∈ S := by
  induction h with
  | refl => exact hs
  | tail _ h2 ih => exact hcl _ ih _ h2

/-- Along a transitive chain a strictly decreasing rank decreases. -/
lemma transGen_rank_lt {α : Type} {rel : α → α → Prop} {rank : α → Nat}
    (hr : ∀ a b, rel a b → rank b < rank a) {a b : α}
    (h : Relation.TransGen rel a b) : rank b < rank a := by
  induction h with
  | single h1 => exact hr _ _ h1
  | tail _ h2 ih => exact lt_trans (hr _ _ h2) ih

/-- A strictly decreasing rank function rules out transitive cycles. -/
lemma no_cycle_of_rank {α : Type} {rel : α → α → Prop} (rank : α → Nat)
    (hr : ∀ a b, rel a b → rank b < rank a) : ∀ n, ¬ Relation.TransGen rel n n :=
  fun _ h => lt_irrefl _ (transGen_rank_lt hr h)

lemma assocFind_eq_none {α : Type} (g : List (String × α)) (n : String)
    (h : n ∉ g.map (·.1)) : assocFind n g = none := by
  induction g with
  | nil => rfl
  | cons p rest ih =>
    simp only [List.map_cons, List.mem_cons, not_or] at h
    have hne : ¬ p.1 = n := fun hh => h.1 hh.symm
    simp only [assocFind, if_neg hne, ih h.2]

lemma resolve_eq_nil (g : Store) (n : String) (h : n ∉ g.map (·.1)) :
    resolve g n = [] := by
  simp [resolve, assocFind_eq_none g n h]

lemma assocFind_length_le (g : Store) (n : String) (l : List String)
    (h : assocFind n g = some l) : l.length ≤ maxDepLen g := by
  induction g with
  | nil => simp [assocFind] at h
  | cons p rest ih =>
    simp only [assocFind] at h
    by_cases hp : p.1 = n
    · rw [if_pos hp] at h
      cases h
      simp only [maxDepLen, List.foldr_cons]
      exact le_max_left _ _
    · rw [if_neg hp] at h
      calc l.length ≤ maxDepLen rest := ih h
        _ ≤ maxDepLen (p :: rest) := by
            simp only [maxDepLen, List.foldr_cons]; exact le_max_right _ _

lemma resolve_length_le (g : Store) (n : String) :
    (resolve g n).length ≤ maxDepLen g := by
  unfold resolve
  cases hf : assocFind n g with
  | none => simp
  | some l => simpa using assocFind_length_le g n l hf

lemma card_sdiff_insert_of_mem {K V : Finset String} {a : String}
    (haK : a ∈ K) (haV : a ∉ V) :
    (K \ insert a V).card + 1 = (K \ V).card := by
  rw [Finset.sdiff_insert]
  exact Finset.card_erase_add_one (Finset.mem_sdiff.mpr ⟨haK, haV⟩)

lemma sdiff_insert_of_not_mem_left {K V : Finset String} {a : String}
    (haK : a ∉ K) : K \ insert a V = K \ V := by
  rw [Finset.sdiff_insert, Finset.erase_eq_of_not_mem]
  intro h
  exact haK (Finset.mem_sdiff.mp h).1

lemma measureT_stop_lt (g : Store) (node : String) (depth : Nat)
    (rest : List (String × Nat)) (visited : List String) (hv : node ∉ visited) :
    measureT g rest (node :: visited) < measureT g ((node, depth) :: rest) visited := by
  by_cases hk : node ∈ keysFinset g
  · have h1 : (keysFinset g \ (node :: visited).toFinset).card + 1
        = (keysFinset g \ visited.toFinset).card := by
      rw [List.toFinset_cons]
      exact card_sdiff_insert_of_mem hk (by simpa using hv)
    simp only [measureT, List.length_cons]
    have h2 : ((keysFinset g \ (node :: visited).toFinset).card + 1) * (maxDepLen g + 1)
        = (keysFinset g \ (node :: visited).toFinset).card * (maxDepLen g + 1)
          + (maxDepLen g + 1) := by ring
    rw [h1] at h2
    omega
  · have h1 : keysFinset g \ (node :: visited).toFinset
        = keysFinset g \ visited.toFinset := by
      rw [List.toFinset_cons]
      exact sdiff_insert_of_not_mem_left hk
    simp only [measureT, h1, List.length_cons]
    omega

lemma measureT_push_lt (g : Store) (node : String) (depth : Nat)
    (rest : List (String × Nat)) (visited : List String) (hv : node ∉ visited) :
    measureT g (((resolve g node).map fun d => (d, depth + 1)).reverse ++ rest)
      (node :: visited) < measureT g ((node, depth) :: rest) visited := by
  by_cases hk : node ∈ keysFinset g
  · have h1 : (keysFinset g \ (node :: visited).toFinset).card + 1
        = (keysFinset g \ visited.toFinset).card := by
      rw [List.toFinset_cons]
      exact card_sdiff_insert_of_mem hk (by simpa using hv)
    have h2 : (resolve g node).length ≤ maxDepLen g := resolve_length_le g node
    simp only [measureT, List.length_append, List.length_reverse, List.length_map,
      List.length_cons]
    have h3 : ((keysFinset g \ (node :: visited).toFinset).card + 1) * (maxDepLen g + 1)
        = (keysFinset g \ (node :: visited).toFinset).card * (maxDepLen g + 1)
          + (maxDepLen g + 1) := by ring
    rw [h1] at h3
    omega
  · have h1 : keysFinset g \ (node :: visited).toFinset
        = keysFinset g \ visited.toFinset := by
      rw [List.toFinset_cons]
      exact sdiff_insert_of_not_mem_left hk
    have h2 : resolve g node = [] := by
      apply resolve_eq_nil
      intro hmem
      exact hk (List.mem_toFinset.mpr hmem)
    simp only [measureT, h1, h2, List.map_nil, List.reverse_nil, List.nil_append,
      List.length_cons]
    omega

/-- Fuel above the measure never runs out. -/
lemma buildTestFuel_some (g : Store) (md : Option Nat) :
    ∀ fuel stack visited store, measureT g stack visited < fuel →
      ∃ out, buildTestFuel g md fuel stack visited store = some out := by
  intro fuel
  induction fuel with
  | zero => intro stack visited store h; exact absurd h (Nat.not_lt_zero _)
  | succ fuel ih =>
    intro stack visited store h
    match stack with
    | [] => exact ⟨store, rfl⟩
    | (node, depth) :: rest =>
      simp only [buildTestFuel]
      by_cases hv : node ∈ visited
      · rw [if_pos hv]
        apply ih
        have : measureT g rest visited < measureT g ((node, depth) :: rest) visited := by
          simp [measureT]
        omega
      · rw [if_neg hv]
        by_cases hst : stopAtDepth md depth
        · rw [if_pos hst]
          apply ih
          have := measureT_stop_lt g node depth rest visited hv
          omega
        · rw [if_neg hst]
          apply ih
          have := measureT_push_lt g node depth rest visited hv
          omega

/-- The fuel chosen by `build_test_graph` suffices. -/
lemma buildTestFuel_top_some (g : Store) (md : Option Nat) (start : String) :
    ∃ out, buildTestFuel g md (testFuelBound g) [(start, 0)] [] [] = some out := by
  apply buildTestFuel_some
  have h1 : (keysFinset g \ ([] : List String).toFinset).card ≤ g.length := by
    calc (keysFinset g \ ([] : List String).toFinset).card
        ≤ (keysFinset g).card := Finset.card_le_card (Finset.sdiff_subset)
      _ ≤ (g.map (·.1)).length := List.toFinset_card_le _
      _ = g.length := List.length_map _ _
  have h2 : (keysFinset g \ ([] : List String).toFinset).card * (maxDepLen g + 1)
      ≤ g.length * (maxDepLen g + 1) := Nat.mul_le_mul_right _ h1
  simp only [measureT, testFuelBound, List.length_cons, List.length_nil]
  have h3 : (g.length + 1) * (maxDepLen g + 1)
      = g.length * (maxDepLen g + 1) + (maxDepLen g + 1) := by ring
  omega

lemma build_test_graph_eq (g : Store) (md : Option Nat) (start : String) :
    buildTestFuel g md (testFuelBound g) [(start, 0)] [] []
      = some (build_test_graph start g md) := by
  obtain ⟨out, hout⟩ := buildTestFuel_top_some g md start
  rw [build_test_graph, hout]
  rfl

/-! ## Correctness of the test builder -/

/-- Recorded entries always hold the node's full direct-dependency list,
for any fuel and depth bound. -/
lemma buildTestFuel_entries (g : Store) (md : Option Nat) :
    ∀ fuel stack visited store out,
      buildTestFuel g md fuel stack visited store = some out →
      (∀ p ∈ store, p.2 = resolve g p.1) →
      ∀ p ∈ out, p.2 = resolve g p.1 := by
  intro fuel
  induction fuel with
  | zero => intro stack visited store out h; exact absurd h (by simp [buildTestFuel])
  | succ fuel ih =>
    intro stack visited store out h hstore
    match stack with
    | [] =>
      simp only [buildTestFuel, Option.some.injEq] at h
      exact h ▸ hstore
    | (node, depth) :: rest =>
      simp only [buildTestFuel] at h
      by_cases hv : node ∈ visited
      · rw [if_pos hv] at h
        exact ih rest visited store out h hstore
      · rw [if_neg hv] at h
        have hstore1 : ∀ p ∈ store ++ [(node, resolve g node)], p.2 = resolve g p.1 := by
          intro p hp
          rcases List.mem_append.mp hp with hp | hp
          · exact hstore p hp
          · simp only [List.mem_singleton] at hp
            subst hp
            rfl
        by_cases hst : stopAtDepth md depth
        · rw [if_pos hst] at h
          exact ih _ _ _ out h hstore1
        · rw [if_neg hst] at h
          exact ih _ _ _ out h hstore1

/-- Master invariant lemma for the unbounded (no depth limit) test build:
starting from a state where the visited list mirrors the store keys and
every visited node's dependencies are covered by the visited set or the
stack, the final store has distinct keys, keeps all existing entries,
absorbs every stacked node, is closed under dependencies, and contains
only nodes reachable from the initial visited set or stack. -/
lemma buildTestFuel_master (g : Store) :
    ∀ fuel stack visited store out,
      buildTestFuel g none fuel stack visited store = some out →
      visited = (store.map (·.1)).reverse →
      visited.Nodup →
      (∀ n ∈ visited, ∀ d ∈ resolve g n, d ∈ visited ∨ d ∈ stack.map (·.1)) →
      (out.map (·.1)).Nodup
      ∧ (∀ p ∈ store, p ∈ out)
      ∧ (∀ e ∈ stack, e.1 ∈ out.map (·.1))
      ∧ (∀ n ∈ out.map (·.1), ∀ d ∈ resolve g n, d ∈ out.map (·.1))
      ∧ (∀ n ∈ out.map (·.1), n ∈ visited ∨ ∃ e ∈ stack, ReachableFrom g e.1 n) := by
  intro fuel
  induction fuel with
  | zero => intro stack visited store out h; exact absurd h (by simp [buildTestFuel])
  | succ fuel ih =>
    intro stack visited store out h hv hnd hcl
    match stack with
    | [] =>
      simp only [buildTestFuel, Option.some.injEq] at h
      subst h
      have hmemv : ∀ n, n ∈ visited ↔ n ∈ store.map (·.1) := by
        intro n
        rw [hv, List.mem_reverse]
      refine ⟨?_, fun p hp => hp, fun e he => absurd he (List.not_mem_nil e), ?_, ?_⟩
      · rw [hv, List.nodup_reverse] at hnd
        exact hnd
      · intro n hn d hd
        rcases hcl n ((hmemv n).mpr hn) d hd with h1 | h1
        · exact (hmemv d).mp h1
        · simp at h1
      · intro n hn
        exact Or.inl ((hmemv n).mpr hn)
    | (node, depth) :: rest =>
      simp only [buildTestFuel] at h
      by_cases hvis : node ∈ visited
      · rw [if_pos hvis] at h
        have hcl1 : ∀ n ∈ visited, ∀ d ∈ resolve g n, d ∈ visited ∨ d ∈ rest.map (·.1) := by
          intro n hn d hd
          rcases hcl n hn d hd with h1 | h1
          · exact Or.inl h1
          · simp only [List.map_cons, List.mem_cons] at h1
            rcases h1 with h1 | h1
            · exact Or.inl (h1 ▸ hvis)
            · exact Or.inr h1
        obtain ⟨A, B, C, D, E⟩ := ih rest visited store out h hv hnd hcl1
        refine ⟨A, B, ?_, D, ?_⟩
        · intro e he
          rcases List.mem_cons.mp he with he | he
          · have hkey : node ∈ store.map (·.1) := by
              rw [hv, List.mem_reverse] at hvis
              exact hvis
            rcases List.mem_map.mp hkey with ⟨p, hp, hpe⟩
            have : p ∈ out := B p hp
            rw [he]
            exact hpe ▸ List.mem_map_of_mem _ this
          · exact C e he
        · intro n hn
          rcases E n hn with h1 | ⟨e, he, hr⟩
          · exact Or.inl h1
          · exact Or.inr ⟨e, List.mem_cons_of_mem _ he, hr⟩
      · rw [if_neg hvis] at h
        have hstop : stopAtDepth none depth = false := rfl
        rw [hstop] at h
        simp only [Bool.false_eq_true, if_false] at h
        have hv1 : node :: visited
            = ((store ++ [(node, resolve g node)]).map (·.1)).reverse := by
          simp [hv]
        have hnd1 : (node :: visited).Nodup := List.nodup_cons.mpr ⟨hvis, hnd⟩
        have hcl1 : ∀ n ∈ node :: visited, ∀ d ∈ resolve g n,
            d ∈ node :: visited
            ∨ d ∈ (((resolve g node).map fun d => (d, depth + 1)).reverse ++ rest).map
                (·.1) := by
          intro n hn d hd
          have hmem : ∀ x, x ∈ ((((resolve g node).map fun d => (d, depth + 1)).reverse
              ++ rest).map (·.1)) ↔ x ∈ resolve g node ∨ x ∈ rest.map (·.1) := by
            intro x
            simp only [List.map_append, List.mem_append, List.map_reverse,
              List.mem_reverse, List.map_map, List.mem_map, Function.comp]
            constructor
            · rintro (⟨a, ha, hax⟩ | ⟨e, he, hex⟩)
              · exact Or.inl (hax ▸ ha)
              · exact Or.inr ⟨e, he, hex⟩
            · rintro (hx | ⟨e, he, hex⟩)
              · exact Or.inl ⟨x, hx, rfl⟩
              · exact Or.inr ⟨e, he, hex⟩
          rcases List.mem_cons.mp hn with hn | hn
          · subst hn
            exact Or.inr ((hmem d).mpr (Or.inl hd))
          · rcases hcl n hn d hd with h1 | h1
            · exact Or.inl (List.mem_cons_of_mem _ h1)
            · rcases List.mem_cons.mp h1 with h1 | h1
              · exact Or.inl (h1 ▸ List.mem_cons_self _ _)
              · exact Or.inr ((hmem d).mpr (Or.inr h1))
        obtain ⟨A, B, C, D, E⟩ := ih _ _ _ out h hv1 hnd1 hcl1
        have hnodeout : (node, resolve g node) ∈ out :=
          B _ (List.mem_append.mpr (Or.inr (List.mem_singleton.mpr rfl)))
        refine ⟨A, ?_, ?_, D, ?_⟩
        · intro p hp
          exact B p (List.mem_append.mpr (Or.inl hp))
        · intro e he
          rcases List.mem_cons.mp he with he | he
          · rw [he]
            exact List.mem_map_of_mem _ hnodeout
          · exact C e (List.mem_append.mpr (Or.inr he))
        · intro n hn
          rcases E n hn with h1 | ⟨e, he, hr⟩
          · rcases List.mem_cons.mp h1 with h1 | h1
            · exact Or.inr ⟨(node, depth), List.mem_cons_self _ _, h1 ▸ Relation.ReflTransGen.refl⟩
            · exact Or.inl h1
          · rcases List.mem_append.mp he with he | he
            · have hed : e.1 ∈ resolve g node := by
                rcases List.mem_reverse.mp he with hme
                rcases List.mem_map.mp hme with ⟨a, ha, hae⟩
                exact hae ▸ ha
              refine Or.inr ⟨(node, depth), List.mem_cons_self _ _, ?_⟩
              exact Relation.ReflTransGen.head hed hr
            · exact Or.inr ⟨e, List.mem_cons_of_mem _ he, hr⟩

/-! ## Renderer lemmas -/

lemma assocFind_mem_keys {α : Type} (g : List (String × α)) (k : String) (v : α)
    (h : assocFind k g = some v) : k ∈ g.map (·.1) := by
  induction g with
  | nil => simp [assocFind] at h
  | cons p rest ih =>
    simp only [assocFind] at h
    by_cases hp : p.1 = k
    · exact hp ▸ List.mem_cons_self _ _
    · rw [if_neg hp] at h
      exact List.mem_cons_of_mem _ (ih h)

/-- `renderKidsWith` only grows the seen-set, provided each child call
does. -/
lemma renderKidsWith_mono
    (f : String → String → Bool → List String → Nat → Option Nat →
      Option (List String × List String))
    (hf : ∀ n p l s d m ls s2, f n p l s d m = some (ls, s2) → ∀ x ∈ s, x ∈ s2) :
    ∀ cs newPre seen depth1 md ls s2,
      renderKidsWith f cs newPre seen depth1 md = some (ls, s2) →
      ∀ x ∈ seen, x ∈ s2 := by
  intro cs
  induction cs with
  | nil =>
    intro newPre seen depth1 md ls s2 h x hx
    simp only [renderKidsWith, Option.some.injEq, Prod.mk.injEq] at h
    exact h.2 ▸ hx
  | cons c cs ih =>
    intro newPre seen depth1 md ls s2 h x hx
    simp only [renderKidsWith] at h
    cases heq1 : f c newPre cs.isEmpty seen depth1 md with
    | none => simp only [heq1] at h; exact absurd h (by simp)
    | some p1 =>
      obtain ⟨ls1, seen1⟩ := p1
      simp only [heq1] at h
      cases heq2 : renderKidsWith f cs newPre seen1 depth1 md with
      | none => simp only [heq2] at h; exact absurd h (by simp)
      | some p2 =>
        obtain ⟨ls2, seen2⟩ := p2
        simp only [heq2, Option.some.injEq, Prod.mk.injEq] at h
        have hx1 := hf _ _ _ _ _ _ _ _ heq1 x hx
        exact h.2 ▸ ih _ _ _ _ _ _ heq2 x hx1

/-- `renderFuel` only grows the seen-set. -/
lemma renderFuel_mono :
    ∀ (fuel : Nat) (g : Store) node pre last seen depth md ls s2,
      renderFuel g fuel node pre last seen depth md = some (ls, s2) →
      ∀ x ∈ seen, x ∈ s2 := by
  intro fuel
  induction fuel with
  | zero =>
    intro g node pre last seen depth md ls s2 h
    exact absurd h (by simp [renderFuel])
  | succ fuel ih =>
    intro g node pre last seen depth md ls s2 h x hx
    simp only [renderFuel] at h
    by_cases hseen : node ∈ seen
    · rw [if_pos hseen] at h
      simp only [Option.some.injEq, Prod.mk.injEq] at h
      exact h.2 ▸ hx
    · rw [if_neg hseen] at h
      by_cases hstop : stopAtDepth md depth
      · rw [if_pos hstop] at h
        cases hfind : assocFind node g with
        | none =>
          simp only [hfind, Option.some.injEq, Prod.mk.injEq] at h
          exact h.2 ▸ List.mem_cons_of_mem _ hx
        | some children =>
          simp only [hfind] at h
          cases hE : children.isEmpty <;>
            · simp only [hE, Bool.false_eq_true, if_false, if_true,
                Option.some.injEq, Prod.mk.injEq] at h
              exact h.2 ▸ List.mem_cons_of_mem _ hx
      · rw [if_neg hstop] at h
        cases hfind : assocFind node g with
        | none =>
          simp only [hfind, Option.some.injEq, Prod.mk.injEq] at h
          exact h.2 ▸ List.mem_cons_of_mem _ hx
        | some children =>
          simp only [hfind] at h
          cases hkids : renderKidsWith (fun n p l s d m => renderFuel g fuel n p l s d m)
              children (if last then pre ++ "    " else pre ++ "│   ")
              (node :: seen) (depth + 1) md with
          | none => simp only [hkids] at h; exact absurd h (by simp)
          | some p2 =>
            obtain ⟨ls2, seen2⟩ := p2
            simp only [hkids, Option.some.injEq, Prod.mk.injEq] at h
            have hx1 : x ∈ node :: seen := List.mem_cons_of_mem _ hx
            have hmono := renderKidsWith_mono _
              (fun n p l s d m ls3 s3 hh => ih g n p l s d m ls3 s3 hh)
              _ _ _ _ _ _ _ hkids x hx1
            exact h.2 ▸ hmono

/-- With fuel above the number of unseen keys, `renderFuel` cannot run
out: each level of descent consumes one unseen key. -/
lemma renderFuel_isSome (g : Store) :
    ∀ fuel node pre last seen depth md,
      (keysFinset g \ seen.toFinset).card < fuel →
      ∃ out, renderFuel g fuel node pre last seen depth md = some out := by
  intro fuel
  induction fuel with
  | zero => intro node pre last seen depth md h; exact absurd h (Nat.not_lt_zero _)
  | succ fuel ih =>
    have hkids : ∀ cs newPre seen2 depth1 md2,
        (keysFinset g \ seen2.toFinset).card < fuel →
        ∃ out, renderKidsWith (fun n p l s d m => renderFuel g fuel n p l s d m)
          cs newPre seen2 depth1 md2 = some out := by
      intro cs
      induction cs with
      | nil => intro newPre seen2 depth1 md2 hc; exact ⟨([], seen2), rfl⟩
      | cons c cs ihc =>
        intro newPre seen2 depth1 md2 hc
        obtain ⟨⟨ls1, s1⟩, h1⟩ := ih c newPre cs.isEmpty seen2 depth1 md2 hc
        have hs1 : ∀ x ∈ seen2, x ∈ s1 :=
          renderFuel_mono fuel g c newPre cs.isEmpty seen2 depth1 md2 ls1 s1 h1
        have hcard : (keysFinset g \ s1.toFinset).card
            ≤ (keysFinset g \ seen2.toFinset).card := by
          apply Finset.card_le_card
          apply Finset.sdiff_subset_sdiff le_rfl
          intro y hy
          exact List.mem_toFinset.mpr (hs1 y (List.mem_toFinset.mp hy))
        obtain ⟨⟨ls2, s2⟩, h2⟩ := ihc newPre s1 depth1 md2 (lt_of_le_of_lt hcard hc)
        refine ⟨(ls1 ++ ls2, s2), ?_⟩
        simp only [renderKidsWith, h1, h2]
    intro node pre last seen depth md h
    simp only [renderFuel]
    by_cases hseen : node ∈ seen
    · rw [if_pos hseen]
      exact ⟨_, rfl⟩
    · rw [if_neg hseen]
      by_cases hstop : stopAtDepth md depth
      · rw [if_pos hstop]
        cases hfind : assocFind node g with
        | none => exact ⟨_, rfl⟩
        | some children =>
          cases hE : children.isEmpty <;> simp only [hE] <;> exact ⟨_, rfl⟩
      · rw [if_neg hstop]
        cases hfind : assocFind node g with
        | none => exact ⟨_, rfl⟩
        | some children =>
          have hnode : node ∈ keysFinset g :=
            List.mem_toFinset.mpr (assocFind_mem_keys g node children hfind)
          have hlt : (keysFinset g \ (node :: seen).toFinset).card < fuel := by
            have h1 : (keysFinset g \ (node :: seen).toFinset).card + 1
                = (keysFinset g \ seen.toFinset).card := by
              rw [List.toFinset_cons]
              exact card_sdiff_insert_of_mem hnode (by simpa using hseen)
            omega
          obtain ⟨⟨ls, s2⟩, hk⟩ := hkids children
            (if last then pre ++ "    " else pre ++ "│   ") (node :: seen)
            (depth + 1) md hlt
          refine ⟨((pre ++ (if last then "└── " else "├── ") ++ node) :: ls, s2), ?_⟩
          simp only [hk]

/-- The fuel chosen by `print_ascii_tree` suffices. -/
lemma print_ascii_tree_eq (g : Store) (node pre : String) (last : Bool)
    (seen : List String) (depth : Nat) (md : Option Nat) :
    renderFuel g (renderFuelBound g) node pre last seen depth md
      = some (print_ascii_tree g node pre last seen depth md) := by
  have hcard : (keysFinset g \ seen.toFinset).card < renderFuelBound g := by
    have h1 : (keysFinset g \ seen.toFinset).card ≤ (keysFinset g).card :=
      Finset.card_le_card Finset.sdiff_subset
    have h2 : (keysFinset g).card ≤ g.length := by
      calc (keysFinset g).card ≤ (g.map (·.1)).length := List.toFinset_card_le _
        _ = g.length := List.length_map _ _
    simp only [renderFuelBound]
    omega
  obtain ⟨out, hout⟩ := renderFuel_isSome g (renderFuelBound g) node pre last seen depth md hcard
  rw [print_ascii_tree, hout]
  rfl

/-! ## Remote builder lemmas -/

lemma assocFind_append_some {κ α : Type} [DecidableEq κ] {k : κ} {v : α}
    {a : List (κ × α)} (b : List (κ × α)) (h : assocFind k a = some v) :
    assocFind k (a ++ b) = some v := by
  induction a with
  | nil => simp [assocFind] at h
  | cons p rest ih =>
    simp only [assocFind, List.cons_append] at h ⊢
    by_cases hp : p.1 = k
    · rw [if_pos hp] at h ⊢
      exact h
    · rw [if_neg hp] at h ⊢
      exact ih h

lemma assocFind_append_none {κ α : Type} [DecidableEq κ] {k : κ}
    {a : List (κ × α)} (b : List (κ × α)) (h : assocFind k a = none) :
    assocFind k (a ++ b) = assocFind k b := by
  induction a with
  | nil => simp
  | cons p rest ih =>
    simp only [assocFind, List.cons_append] at h ⊢
    by_cases hp : p.1 = k
    · rw [if_pos hp] at h
      exact absurd h (by simp)
    · rw [if_neg hp] at h ⊢
      exact ih h

lemma assocFind_mem_pair {κ α : Type} [DecidableEq κ] (l : List (κ × α)) (k : κ) (v : α)
    (h : assocFind k l = some v) : (k, v) ∈ l := by
  induction l with
  | nil => simp [assocFind] at h
  | cons p rest ih =>
    simp only [assocFind] at h
    by_cases hp : p.1 = k
    · rw [if_pos hp] at h
      injection h with h2
      have hpk : p = (k, v) := by
        obtain ⟨p1, p2⟩ := p
        simp only at hp h2
        rw [hp, h2]
      rw [hpk]
      exact List.mem_cons_self _ _
    · rw [if_neg hp] at h
      exact List.mem_cons_of_mem _ (ih h)

/-- Exhaustive description of `fetch_latest_version_cached`. -/
lemma fetch_latest_cases (r : Registry) (pkg : String) (lc : List (String × String)) :
    (∃ v, assocFind pkg lc = some v
      ∧ fetch_latest_version_cached r pkg lc = (.ok v, lc, []))
    ∨ (∃ e, assocFind pkg lc = none ∧ fetchVersionsApi r pkg = .error e
      ∧ fetch_latest_version_cached r pkg lc = (.error e, lc, [pkg]))
    ∨ (assocFind pkg lc = none ∧ fetchVersionsApi r pkg = .ok []
      ∧ fetch_latest_version_cached r pkg lc = (.error (notFoundMsg pkg), lc, [pkg]))
    ∨ (∃ v vs, assocFind pkg lc = none ∧ fetchVersionsApi r pkg = .ok (v :: vs)
      ∧ fetch_latest_version_cached r pkg lc = (.ok v, lc ++ [(pkg, v)], [pkg])) := by
  cases hc : assocFind pkg lc with
  | some v =>
    exact Or.inl ⟨v, rfl, by simp only [fetch_latest_version_cached, hc]⟩
  | none =>
    cases hv : fetchVersionsApi r pkg with
    | error e =>
      exact Or.inr (Or.inl ⟨e, rfl, rfl, by simp only [fetch_latest_version_cached, hc, hv]⟩)
    | ok vs =>
      cases vs with
      | nil =>
        exact Or.inr (Or.inr (Or.inl ⟨rfl, rfl,
          by simp only [fetch_latest_version_cached, hc, hv]⟩))
      | cons v vs =>
        exact Or.inr (Or.inr (Or.inr ⟨v, vs, rfl, rfl,
          by simp only [fetch_latest_version_cached, hc, hv]⟩))

/-- Exhaustive description of `fetch_dependencies_cached`. -/
lemma fetch_dependencies_cases (r : Registry) (pkg ver : String)
    (dc : List (String × List String)) :
    (∃ v, assocFind (pkg ++ ":" ++ ver) dc = some v
      ∧ fetch_dependencies_cached r pkg ver dc = (.ok v, dc, []))
    ∨ (∃ e, assocFind (pkg ++ ":" ++ ver) dc = none ∧ fetchDepsApi r pkg ver = .error e
      ∧ fetch_dependencies_cached r pkg ver dc = (.error e, dc, [(pkg, ver)]))
    ∨ (∃ ds, assocFind (pkg ++ ":" ++ ver) dc = none ∧ fetchDepsApi r pkg ver = .ok ds
      ∧ fetch_dependencies_cached r pkg ver dc
        = (.ok (depNamesOfList ds),
            dc ++ [(pkg ++ ":" ++ ver, depNamesOfList ds)], [(pkg, ver)])) := by
  cases hc : assocFind (pkg ++ ":" ++ ver) dc with
  | some v =>
    exact Or.inl ⟨v, rfl, by simp only [fetch_dependencies_cached, hc]⟩
  | none =>
    cases hd : fetchDepsApi r pkg ver with
    | error e =>
      exact Or.inr (Or.inl ⟨e, rfl, rfl,
        by simp only [fetch_dependencies_cached, hc, hd]⟩)
    | ok ds =>
      exact Or.inr (Or.inr ⟨ds, rfl, rfl,
        by simp only [fetch_dependencies_cached, hc, hd]⟩)

lemma fetchVersionsApi_ok_cons_latest {r : Registry} {pkg v : String} {vs : List String}
    (h : fetchVersionsApi r pkg = .ok (v :: vs)) : latestOf r pkg = some v := by
  simp only [latestOf, h]

lemma fetchDepsApi_ok_mem_table {r : Registry} {pkg ver : String} {ds : List RegDep}
    (h : fetchDepsApi r pkg ver = .ok ds) :
    assocFind (pkg, ver) r.depsTable = some (.ok ds) := by
  unfold fetchDepsApi at h
  cases hc : assocFind (pkg, ver) r.depsTable with
  | none => rw [hc] at h; simp at h
  | some x => rw [hc] at h; simp at h; rw [h]

lemma depNamesOfList_subset (ds : List RegDep) :
    ∀ n ∈ depNamesOfList ds, n ∈ ds.map (·.crate_id) := by
  intro n hn
  simp only [depNamesOfList, List.mem_map] at hn
  obtain ⟨d, hd, hdn⟩ := hn
  exact List.mem_map.mpr ⟨d, (List.mem_filter.mp hd).1, hdn⟩

lemma depNamesOfList_length_le (ds : List RegDep) :
    (depNamesOfList ds).length ≤ ds.length := by
  simp only [depNamesOfList, List.length_map]
  exact List.length_filter_le _ _

lemma fetchDepsApi_names_regNames {r : Registry} {pkg ver : String} {ds : List RegDep}
    (h : fetchDepsApi r pkg ver = .ok ds) :
    ∀ n ∈ depNamesOfList ds, n ∈ regNames r := by
  intro n hn
  have hmem := assocFind_mem_pair _ _ _ (fetchDepsApi_ok_mem_table h)
  simp only [regNames, List.mem_flatMap]
  exact ⟨((pkg, ver), .ok ds), hmem, depNamesOfList_subset ds n hn⟩

lemma foldr_max_deps_le (l : List ((String × String) × Except String (List RegDep)))
    (e : (String × String) × Except String (List RegDep)) (he : e ∈ l) :
    (match e.2 with | .ok ds => ds.length | .error _ => 0)
      ≤ l.foldr
          (fun e m =>
            max (match e.2 with | .ok ds => ds.length | .error _ => 0) m) 0 := by
  induction l with
  | nil => simp at he
  | cons f rest ih =>
    rcases List.mem_cons.mp he with he | he
    · subst he
      simp only [List.foldr_cons]
      exact le_max_left _ _
    · simp only [List.foldr_cons]
      exact le_trans (ih he) (le_max_right _ _)

lemma fetchDepsApi_length_le {r : Registry} {pkg ver : String} {ds : List RegDep}
    (h : fetchDepsApi r pkg ver = .ok ds) : ds.length ≤ regMaxDeps r := by
  have hmem := assocFind_mem_pair _ _ _ (fetchDepsApi_ok_mem_table h)
  have := foldr_max_deps_le r.depsTable ((pkg, ver), .ok ds) hmem
  simpa [regMaxDeps] using this

lemma assocFind_append_single_ne {α : Type} {p d : String} {v : α}
    (lc : List (String × α)) (hne : d ≠ p) :
    assocFind p (lc ++ [(d, v)]) = assocFind p lc := by
  cases h : assocFind p lc with
  | some w => exact assocFind_append_some _ h
  | none =>
    rw [assocFind_append_none _ h]
    simp [assocFind, hne]

/-- Stack entries produced by `pushDeps` name only listed dependencies,
and there are at most as many of them as dependencies. -/
lemma pushDeps_subset_len (r : Registry) (depth1 : Nat) :
    ∀ deps lc,
      (∀ e ∈ (pushDeps r depth1 deps lc).1, e.1 ∈ deps)
      ∧ (pushDeps r depth1 deps lc).1.length ≤ deps.length := by
  intro deps
  induction deps with
  | nil =>
    intro lc
    refine ⟨?_, ?_⟩
    · intro e he
      simp [pushDeps] at he
    · simp [pushDeps]
  | cons d rest ih =>
    intro lc
    rcases h4 : fetch_latest_version_cached r d lc with ⟨res, lc1, reqs⟩
    rcases hP : pushDeps r depth1 rest lc1 with ⟨es, lc2, rs, ws⟩
    have hes1 : ∀ e ∈ es, e.1 ∈ rest := by
      intro e he
      exact (ih lc1).1 e (by rw [hP]; exact he)
    have hlen1 : es.length ≤ rest.length := by
      have := (ih lc1).2
      rw [hP] at this
      exact this
    cases res with
    | ok v =>
      have hsum : pushDeps r depth1 (d :: rest) lc
          = ((d, v, depth1) :: es, lc2, reqs ++ rs, ws) := by
        simp only [pushDeps, h4, hP]
      rw [hsum]
      refine ⟨?_, ?_⟩
      · intro e he
        rcases List.mem_cons.mp he with he | he
        · rw [he]
          exact List.mem_cons_self _ _
        · exact List.mem_cons_of_mem _ (hes1 e he)
      · simp only [List.length_cons]
        omega
    | error e0 =>
      have hsum : pushDeps r depth1 (d :: rest) lc
          = (es, lc2, reqs ++ rs, versionWarnMsg d e0 :: ws) := by
        simp only [pushDeps, h4, hP]
      rw [hsum]
      refine ⟨?_, ?_⟩
      · intro e he
        exact List.mem_cons_of_mem _ (hes1 e he)
      · simp only [List.length_cons]
        omega

/-- Behaviour of `pushDeps` under the cache invariant: the version cache
keeps mapping packages to their latest version and never loses entries,
every produced stack entry carries its package's latest version at
`depth1`, and every dependency with a nonempty version listing is pushed. -/
lemma pushDeps_spec (r : Registry) (depth1 : Nat) :
    ∀ deps lc,
      (∀ kv ∈ lc, latestOf r kv.1 = some kv.2) →
      (∀ kv ∈ (pushDeps r depth1 deps lc).2.1, latestOf r kv.1 = some kv.2)
      ∧ (∀ p v, assocFind p lc = some v →
          assocFind p (pushDeps r depth1 deps lc).2.1 = some v)
      ∧ (∀ e ∈ (pushDeps r depth1 deps lc).1,
          e.1 ∈ deps ∧ latestOf r e.1 = some e.2.1 ∧ e.2.2 = depth1)
      ∧ (∀ d ∈ deps, (∃ v vs, fetchVersionsApi r d = .ok (v :: vs)) →
          d ∈ (pushDeps r depth1 deps lc).1.map (·.1)) := by
  intro deps
  induction deps with
  | nil =>
    intro lc hlc
    refine ⟨?_, ?_, ?_, ?_⟩
    · intro kv hkv
      exact hlc kv hkv
    · intro p v h
      exact h
    · intro e he
      simp [pushDeps] at he
    · intro d hd
      simp at hd
  | cons d rest ih =>
    intro lc hlc
    rcases fetch_latest_cases r d lc with
      ⟨v, hc, hf⟩ | ⟨e0, hc, hv, hf⟩ | ⟨hc, hv, hf⟩ | ⟨v, vs, hc, hv, hf⟩
    · -- cache hit
      rcases hP : pushDeps r depth1 rest lc with ⟨es, lc2, rs, ws⟩
      have hsum : pushDeps r depth1 (d :: rest) lc
          = ((d, v, depth1) :: es, lc2, [] ++ rs, ws) := by
        simp only [pushDeps, hf, hP]
      obtain ⟨I1, I2, I3, I4⟩ := ih lc hlc
      rw [hP] at I1 I2 I3 I4
      have hdv : latestOf r d = some v := hlc (d, v) (assocFind_mem_pair _ _ _ hc)
      rw [hsum]
      refine ⟨I1, I2, ?_, ?_⟩
      · intro e he
        rcases List.mem_cons.mp he with he | he
        · rw [he]
          exact ⟨List.mem_cons_self _ _, hdv, rfl⟩
        · obtain ⟨a, b, c⟩ := I3 e he
          exact ⟨List.mem_cons_of_mem _ a, b, c⟩
      · intro d2 hd2 hex
        rcases List.mem_cons.mp hd2 with hd2 | hd2
        · rw [hd2]
          exact List.mem_map.mpr ⟨(d, v, depth1), List.mem_cons_self _ _, rfl⟩
        · rcases List.mem_map.mp (I4 d2 hd2 hex) with ⟨e, he, hee⟩
          exact List.mem_map.mpr ⟨e, List.mem_cons_of_mem _ he, hee⟩
    · -- transport failure on the versions endpoint
      rcases hP : pushDeps r depth1 rest lc with ⟨es, lc2, rs, ws⟩
      have hsum : pushDeps r depth1 (d :: rest) lc
          = (es, lc2, [d] ++ rs, versionWarnMsg d e0 :: ws) := by
        simp only [pushDeps, hf, hP]
      obtain ⟨I1, I2, I3, I4⟩ := ih lc hlc
      rw [hP] at I1 I2 I3 I4
      rw [hsum]
      refine ⟨I1, I2, ?_, ?_⟩
      · intro e he
        obtain ⟨a, b, c⟩ := I3 e he
        exact ⟨List.mem_cons_of_mem _ a, b, c⟩
      · intro d2 hd2 hex
        rcases List.mem_cons.mp hd2 with hd2 | hd2
        · exfalso
          obtain ⟨v2, vs2, hv2⟩ := hex
          rw [hd2, hv] at hv2
          exact absurd hv2 (by simp)
        · exact I4 d2 hd2 hex
    · -- empty version list (NotFoundError)
      rcases hP : pushDeps r depth1 rest lc with ⟨es, lc2, rs, ws⟩
      have hsum : pushDeps r depth1 (d :: rest) lc
          = (es, lc2, [d] ++ rs, versionWarnMsg d (notFoundMsg d) :: ws) := by
        simp only [pushDeps, hf, hP]
      obtain ⟨I1, I2, I3, I4⟩ := ih lc hlc
      rw [hP] at I1 I2 I3 I4
      rw [hsum]
      refine ⟨I1, I2, ?_, ?_⟩
      · intro e he
        obtain ⟨a, b, c⟩ := I3 e he
        exact ⟨List.mem_cons_of_mem _ a, b, c⟩
      · intro d2 hd2 hex
        rcases List.mem_cons.mp hd2 with hd2 | hd2
        · exfalso
          obtain ⟨v2, vs2, hv2⟩ := hex
          rw [hd2, hv] at hv2
          exact absurd hv2 (by simp)
        · exact I4 d2 hd2 hex
    · -- fresh successful lookup: cache the first listed version
      have hlc1 : ∀ kv ∈ lc ++ [(d, v)], latestOf r kv.1 = some kv.2 := by
        intro kv hkv
        rcases List.mem_append.mp hkv with hkv | hkv
        · exact hlc kv hkv
        · simp only [List.mem_singleton] at hkv
          rw [hkv]
          exact fetchVersionsApi_ok_cons_latest hv
      rcases hP : pushDeps r depth1 rest (lc ++ [(d, v)]) with ⟨es, lc2, rs, ws⟩
      have hsum : pushDeps r depth1 (d :: rest) lc
          = ((d, v, depth1) :: es, lc2, [d] ++ rs, ws) := by
        simp only [pushDeps, hf, hP]
      obtain ⟨I1, I2, I3, I4⟩ := ih (lc ++ [(d, v)]) hlc1
      rw [hP] at I1 I2 I3 I4
      rw [hsum]
      refine ⟨I1, ?_, ?_, ?_⟩
      · intro p pv h
        exact I2 p pv (assocFind_append_some _ h)
      · intro e he
        rcases List.mem_cons.mp he with he | he
        · rw [he]
          exact ⟨List.mem_cons_self _ _, fetchVersionsApi_ok_cons_latest hv, rfl⟩
        · obtain ⟨a, b, c⟩ := I3 e he
          exact ⟨List.mem_cons_of_mem _ a, b, c⟩
      · intro d2 hd2 hex
        rcases List.mem_cons.mp hd2 with hd2 | hd2
        · rw [hd2]
          exact List.mem_map.mpr ⟨(d, v, depth1), List.mem_cons_self _ _, rfl⟩
        · rcases List.mem_map.mp (I4 d2 hd2 hex) with ⟨e, he, hee⟩
          exact List.mem_map.mpr ⟨e, List.mem_cons_of_mem _ he, hee⟩

/-- Version-request accounting in `pushDeps` for a package `p` whose
version listing is nonempty: at most one request counting the cache
state, and afterwards `p` is cached exactly when it was requested or
already cached. -/
lemma pushDeps_count (r : Registry) (depth1 : Nat) (p v1 : String) (vs1 : List String)
    (hp : fetchVersionsApi r p = .ok (v1 :: vs1)) :
    ∀ deps lc,
      ((pushDeps r depth1 deps lc).2.2.1.count p
        + (if (assocFind p lc).isSome then 1 else 0) ≤ 1)
      ∧ ((assocFind p (pushDeps r depth1 deps lc).2.1).isSome
          ↔ ((assocFind p lc).isSome
            ∨ (pushDeps r depth1 deps lc).2.2.1.count p = 1)) := by
  intro deps
  induction deps with
  | nil =>
    intro lc
    simp only [pushDeps, List.count_nil]
    refine ⟨by split <;> omega, by simp⟩
  | cons d rest ih =>
    intro lc
    by_cases hdp : d = p
    · subst hdp
      rcases fetch_latest_cases r d lc with
        ⟨v, hc, hf⟩ | ⟨e0, hc, hv, hf⟩ | ⟨hc, hv, hf⟩ | ⟨v, vs, hc, hv, hf⟩
      · -- cached: no request for d, cache state unchanged
        rcases hP : pushDeps r depth1 rest lc with ⟨es, lc2, rs, ws⟩
        have hsum : pushDeps r depth1 (d :: rest) lc
            = ((d, v, depth1) :: es, lc2, [] ++ rs, ws) := by
          simp only [pushDeps, hf, hP]
        obtain ⟨I1, I2⟩ := ih lc
        rw [hP] at I1 I2
        rw [hsum]
        simp only [List.nil_append]
        refine ⟨I1, ?_⟩
        rw [I2]
      · exfalso
        rw [hv] at hp
        exact absurd hp (by simp)
      · exfalso
        rw [hv] at hp
        exact absurd hp (by simp)
      · -- fresh request for d = p: afterwards cached
        rcases hP : pushDeps r depth1 rest (lc ++ [(d, v)]) with ⟨es, lc2, rs, ws⟩
        have hsum : pushDeps r depth1 (d :: rest) lc
            = ((d, v, depth1) :: es, lc2, [d] ++ rs, ws) := by
          simp only [pushDeps, hf, hP]
        obtain ⟨I1, I2⟩ := ih (lc ++ [(d, v)])
        rw [hP] at I1 I2
        dsimp only at I1 I2
        rw [hsum]
        have hsome1 : (assocFind d (lc ++ [(d, v)])).isSome := by
          rw [assocFind_append_none _ hc]
          simp [assocFind]
        have hrs0 : rs.count d = 0 := by
          rw [if_pos hsome1] at I1
          omega
        have hnone : (assocFind d lc).isSome = false := by rw [hc]; rfl
        have hca : ([d] ++ rs).count d = ([d] : List String).count d + rs.count d :=
          List.count_append _ _ _
        have hc1 : ([d] : List String).count d = 1 := by simp
        refine ⟨?_, ?_⟩
        · rw [hca, hc1, hrs0, hnone]
          simp
        · constructor
          · intro _
            right
            rw [hca, hc1, hrs0]
          · intro _
            rw [I2]
            exact Or.inl hsome1
    · -- a different dependency never requests p and cannot cache it
      rcases fetch_latest_cases r d lc with
        ⟨v, hc, hf⟩ | ⟨e0, hc, hv, hf⟩ | ⟨hc, hv, hf⟩ | ⟨v, vs, hc, hv, hf⟩
      · rcases hP : pushDeps r depth1 rest lc with ⟨es, lc2, rs, ws⟩
        have hsum : pushDeps r depth1 (d :: rest) lc
            = ((d, v, depth1) :: es, lc2, [] ++ rs, ws) := by
          simp only [pushDeps, hf, hP]
        obtain ⟨I1, I2⟩ := ih lc
        rw [hP] at I1 I2
        rw [hsum]
        simp only [List.nil_append]
        exact ⟨I1, I2⟩
      · rcases hP : pushDeps r depth1 rest lc with ⟨es, lc2, rs, ws⟩
        have hsum : pushDeps r depth1 (d :: rest) lc
            = (es, lc2, [d] ++ rs, versionWarnMsg d e0 :: ws) := by
          simp only [pushDeps, hf, hP]
        obtain ⟨I1, I2⟩ := ih lc
        rw [hP] at I1 I2
        rw [hsum]
        have hcnt : ([d] ++ rs).count p = rs.count p := by
          simp [List.count_append, List.count_cons, hdp]
        rw [hcnt]
        exact ⟨I1, I2⟩
      · rcases hP : pushDeps r depth1 rest lc with ⟨es, lc2, rs, ws⟩
        have hsum : pushDeps r depth1 (d :: rest) lc
            = (es, lc2, [d] ++ rs, versionWarnMsg d (notFoundMsg d) :: ws) := by
          simp only [pushDeps, hf, hP]
        obtain ⟨I1, I2⟩ := ih lc
        rw [hP] at I1 I2
        rw [hsum]
        have hcnt : ([d] ++ rs).count p = rs.count p := by
          simp [List.count_append, List.count_cons, hdp]
        rw [hcnt]
        exact ⟨I1, I2⟩
      · rcases hP : pushDeps r depth1 rest (lc ++ [(d, v)]) with ⟨es, lc2, rs, ws⟩
        have hsum : pushDeps r depth1 (d :: rest) lc
            = ((d, v, depth1) :: es, lc2, [d] ++ rs, ws) := by
          simp only [pushDeps, hf, hP]
        obtain ⟨I1, I2⟩ := ih (lc ++ [(d, v)])
        rw [hP] at I1 I2
        rw [hsum]
        have hpre : assocFind p (lc ++ [(d, v)]) = assocFind p lc :=
          assocFind_append_single_ne lc hdp
        rw [hpre] at I1 I2
        have hcnt : ([d] ++ rs).count p = rs.count p := by
          simp [List.count_append, List.count_cons, hdp]
        rw [hcnt]
        exact ⟨I1, I2⟩

/-- Fuel above the measure never runs out in the remote build, for any
finite registry: every name the loop can push comes from the registry's
dependency tables (collected in `W`). -/
lemma buildRealFuel_some (r : Registry) (md : Option Nat) (W : Finset String)
    (hW : ∀ n ∈ regNames r, n ∈ W) :
    ∀ fuel stack visited store lc dc log,
      (∀ e ∈ stack, e.1 ∈ W) →
      (∀ kv ∈ dc, (∀ n ∈ kv.2, n ∈ W) ∧ kv.2.length ≤ regMaxDeps r) →
      (W \ visited.toFinset).card * (regMaxDeps r + 1) + stack.length < fuel →
      ∃ out, buildRealFuel r md fuel stack visited store lc dc log = some out := by
  intro fuel
  induction fuel with
  | zero =>
    intro stack visited store lc dc log _ _ h
    exact absurd h (Nat.not_lt_zero _)
  | succ fuel ih =>
    intro stack visited store lc dc log hstack hdc h
    match stack with
    | [] => exact ⟨_, rfl⟩
    | (node, ver, depth) :: rest =>
      have hnodeW : node ∈ W := hstack _ (List.mem_cons_self _ _)
      have hrest : ∀ e ∈ rest, e.1 ∈ W :=
        fun e he => hstack e (List.mem_cons_of_mem _ he)
      simp only [buildRealFuel]
      by_cases hv : node ∈ visited
      · rw [if_pos hv]
        apply ih rest visited store lc dc log hrest hdc
        simp only [List.length_cons] at h
        omega
      · rw [if_neg hv]
        have hcard : (W \ (node :: visited).toFinset).card + 1
            = (W \ visited.toFinset).card := by
          rw [List.toFinset_cons]
          exact card_sdiff_insert_of_mem hnodeW (by simpa using hv)
        have hmul : ((W \ (node :: visited).toFinset).card + 1) * (regMaxDeps r + 1)
            = (W \ (node :: visited).toFinset).card * (regMaxDeps r + 1)
              + (regMaxDeps r + 1) := by ring
        rw [hcard] at hmul
        rcases fetch_dependencies_cases r node ver dc with
          ⟨vdeps, hc, hf⟩ | ⟨e, hc, ha, hf⟩ | ⟨ds, hc, ha, hf⟩
        · -- dependency names served from the cache
          obtain ⟨hvW, hvlen⟩ := hdc _ (assocFind_mem_pair _ _ _ hc)
          dsimp only at hvW hvlen
          rcases hP : pushDeps r (depth + 1) vdeps lc with ⟨es, lc1, vreqs, warns⟩
          simp only [hf, hP]
          obtain ⟨hsub, hlen⟩ := pushDeps_subset_len r (depth + 1) vdeps lc
          rw [hP] at hsub hlen
          dsimp only at hsub hlen
          by_cases hst : stopAtDepth md depth
          · rw [if_pos hst]
            apply ih rest (node :: visited) _ _ _ _ hrest hdc
            simp only [List.length_cons] at h
            omega
          · rw [if_neg hst]
            apply ih (es.reverse ++ rest) (node :: visited) _ _ _ _ ?stackok hdc
            · simp only [List.length_append, List.length_reverse, List.length_cons] at h ⊢
              omega
            case stackok =>
              intro e he
              rcases List.mem_append.mp he with he | he
              · exact hvW _ (hsub e (List.mem_reverse.mp he))
              · exact hrest e he
        · -- dependency fetch fails: the build aborts at once
          simp only [hf]
          exact ⟨_, rfl⟩
        · -- fresh successful dependency fetch
          have hnames : ∀ n ∈ depNamesOfList ds, n ∈ W :=
            fun n hn => hW n (fetchDepsApi_names_regNames ha n hn)
          have hdslen : (depNamesOfList ds).length ≤ regMaxDeps r :=
            le_trans (depNamesOfList_length_le ds) (fetchDepsApi_length_le ha)
          have hdc1 : ∀ kv ∈ dc ++ [(node ++ ":" ++ ver, depNamesOfList ds)],
              (∀ n ∈ kv.2, n ∈ W) ∧ kv.2.length ≤ regMaxDeps r := by
            intro kv hkv
            rcases List.mem_append.mp hkv with hkv | hkv
            · exact hdc kv hkv
            · simp only [List.mem_singleton] at hkv
              rw [hkv]
              exact ⟨hnames, hdslen⟩
          rcases hP : pushDeps r (depth + 1) (depNamesOfList ds) lc with ⟨es, lc1, vreqs, warns⟩
          simp only [hf, hP]
          obtain ⟨hsub, hlen⟩ := pushDeps_subset_len r (depth + 1) (depNamesOfList ds) lc
          rw [hP] at hsub hlen
          dsimp only at hsub hlen
          by_cases hst : stopAtDepth md depth
          · rw [if_pos hst]
            apply ih rest (node :: visited) _ _ _ _ hrest hdc1
            simp only [List.length_cons] at h
            omega
          · rw [if_neg hst]
            apply ih (es.reverse ++ rest) (node :: visited) _ _ _ _ ?stackok2 hdc1
            · simp only [List.length_append, List.length_reverse, List.length_cons] at h ⊢
              omega
            case stackok2 =>
              intro e he
              rcases List.mem_append.mp he with he | he
              · exact hnames _ (hsub e (List.mem_reverse.mp he))
              · exact hrest e he

/-- The fuel chosen by `build_real_graph` suffices. -/
lemma build_real_graph_eq (r : Registry) (pkg ver : String) (md : Option Nat) :
    buildRealFuel r md (realFuelBound r pkg) [(pkg, ver, 0)] [] [] [] [] ⟨[], [], []⟩
      = some (build_real_graph r pkg ver md) := by
  obtain ⟨out, hout⟩ := buildRealFuel_some r md (insert pkg (regNames r).toFinset)
    (fun n hn => Finset.mem_insert_of_mem (List.mem_toFinset.mpr hn))
    (realFuelBound r pkg) [(pkg, ver, 0)] [] [] [] [] ⟨[], [], []⟩
    (by
      intro e he
      simp only [List.mem_singleton] at he
      rw [he]
      exact Finset.mem_insert_self _ _)
    (by intro kv hkv; simp at hkv)
    (by
      simp only [realFuelBound, List.toFinset_nil, Finset.sdiff_empty,
        List.length_cons, List.length_nil]
      omega)
  rw [build_real_graph, hout]
  rfl

/-- Any error the remote build loop returns is an error of the
dependency-listing fetch: version-lookup failures never abort the build. -/
lemma buildRealFuel_error_origin (r : Registry) (md : Option Nat) :
    ∀ fuel stack visited store lc dc log e,
      buildRealFuel r md fuel stack visited store lc dc log = some (.error e) →
      ∃ p v, fetchDepsApi r p v = .error e := by
  intro fuel
  induction fuel with
  | zero =>
    intro stack visited store lc dc log e h
    exact absurd h (by simp [buildRealFuel])
  | succ fuel ih =>
    intro stack visited store lc dc log e h
    match stack with
    | [] =>
      simp only [buildRealFuel, Option.some.injEq] at h
      exact absurd h (by simp)
    | (node, ver, depth) :: rest =>
      simp only [buildRealFuel] at h
      by_cases hv : node ∈ visited
      · rw [if_pos hv] at h
        exact ih _ _ _ _ _ _ _ h
      · rw [if_neg hv] at h
        rcases fetch_dependencies_cases r node ver dc with
          ⟨vdeps, hc, hf⟩ | ⟨e0, hc, ha, hf⟩ | ⟨ds, hc, ha, hf⟩
        · rcases hP : pushDeps r (depth + 1) vdeps lc with ⟨es, lc1, vreqs, warns⟩
          simp only [hf, hP] at h
          by_cases hst : stopAtDepth md depth
          · rw [if_pos hst] at h
            exact ih _ _ _ _ _ _ _ h
          · rw [if_neg hst] at h
            exact ih _ _ _ _ _ _ _ h
        · simp only [hf, Option.some.injEq] at h
          injection h with h1
          exact ⟨node, ver, h1 ▸ ha⟩
        · rcases hP : pushDeps r (depth + 1) (depNamesOfList ds) lc with ⟨es, lc1, vreqs, warns⟩
          simp only [hf, hP] at h
          by_cases hst : stopAtDepth md depth
          · rw [if_pos hst] at h
            exact ih _ _ _ _ _ _ _ h
          · rw [if_neg hst] at h
            exact ih _ _ _ _ _ _ _ h

/-- Version-request accounting over a whole remote build, for a package
`p` whose version listing is nonempty: the final number of versions
requests for `p` exceeds the initial one by at most one, and not at all
when `p` is already cached. -/
lemma buildRealFuel_version_count (r : Registry) (md : Option Nat)
    (p v1 : String) (vs1 : List String)
    (hp : fetchVersionsApi r p = .ok (v1 :: vs1)) :
    ∀ fuel stack visited store lc dc log st lg,
      buildRealFuel r md fuel stack visited store lc dc log = some (.ok (st, lg)) →
      lg.versionRequests.count p
        ≤ log.versionRequests.count p
          + (if (assocFind p lc).isSome then 0 else 1) := by
  intro fuel
  induction fuel with
  | zero =>
    intro stack visited store lc dc log st lg h
    exact absurd h (by simp [buildRealFuel])
  | succ fuel ih =>
    intro stack visited store lc dc log st lg h
    match stack with
    | [] =>
      simp only [buildRealFuel, Option.some.injEq] at h
      have hlg : lg = log := by
        injection h with h1
        injection h1 with h2 h3
        exact h3.symm
      rw [hlg]
      split <;> omega
    | (node, ver, depth) :: rest =>
      simp only [buildRealFuel] at h
      by_cases hv : node ∈ visited
      · rw [if_pos hv] at h
        exact ih _ _ _ _ _ _ _ _ h
      · rw [if_neg hv] at h
        rcases fetch_dependencies_cases r node ver dc with
          ⟨vdeps, hc, hf⟩ | ⟨e0, hc, ha, hf⟩ | ⟨ds, hc, ha, hf⟩
        · rcases hP : pushDeps r (depth + 1) vdeps lc with ⟨es, lc1, vreqs, warns⟩
          simp only [hf, hP] at h
          by_cases hst : stopAtDepth md depth
          · rw [if_pos hst] at h
            have := ih _ _ _ _ _ _ _ _ h
            dsimp only at this
            exact this
          · rw [if_neg hst] at h
            have hrec := ih _ _ _ _ _ _ _ _ h
            dsimp only at hrec
            rw [List.count_append] at hrec
            obtain ⟨I1, I2⟩ := pushDeps_count r (depth + 1) p v1 vs1 hp vdeps lc
            rw [hP] at I1 I2
            dsimp only at I1 I2
            by_cases hsome : (assocFind p lc).isSome
            · rw [if_pos hsome] at I1 ⊢
              have hv0 : vreqs.count p = 0 := by omega
              have hsome1 : (assocFind p lc1).isSome := I2.mpr (Or.inl hsome)
              rw [if_pos hsome1] at hrec
              omega
            · rw [if_neg hsome] at I1 ⊢
              by_cases hsome1 : (assocFind p lc1).isSome
              · rw [if_pos hsome1] at hrec
                have := I2.mp hsome1
                rcases this with hcon | hcnt
                · exact absurd hcon hsome
                · omega
              · rw [if_neg hsome1] at hrec
                have hnot : ¬ ((assocFind p lc).isSome ∨ vreqs.count p = 1) :=
                  fun hor => hsome1 (I2.mpr hor)
                push_neg at hnot
                omega
        · simp only [hf, Option.some.injEq] at h
          exact absurd h (by simp)
        · rcases hP : pushDeps r (depth + 1) (depNamesOfList ds) lc with ⟨es, lc1, vreqs, warns⟩
          simp only [hf, hP] at h
          by_cases hst : stopAtDepth md depth
          · rw [if_pos hst] at h
            have := ih _ _ _ _ _ _ _ _ h
            dsimp only at this
            exact this
          · rw [if_neg hst] at h
            have hrec := ih _ _ _ _ _ _ _ _ h
            dsimp only at hrec
            rw [List.count_append] at hrec
            obtain ⟨I1, I2⟩ := pushDeps_count r (depth + 1) p v1 vs1 hp (depNamesOfList ds) lc
            rw [hP] at I1 I2
            dsimp only at I1 I2
            by_cases hsome : (assocFind p lc).isSome
            · rw [if_pos hsome] at I1 ⊢
              have hv0 : vreqs.count p = 0 := by omega
              have hsome1 : (assocFind p lc1).isSome := I2.mpr (Or.inl hsome)
              rw [if_pos hsome1] at hrec
              omega
            · rw [if_neg hsome] at I1 ⊢
              by_cases hsome1 : (assocFind p lc1).isSome
              · rw [if_pos hsome1] at hrec
                have := I2.mp hsome1
                rcases this with hcon | hcnt
                · exact absurd hcon hsome
                · omega
              · rw [if_neg hsome1] at hrec
                have hnot : ¬ ((assocFind p lc).isSome ∨ vreqs.count p = 1) :=
                  fun hor => hsome1 (I2.mpr hor)
                push_neg at hnot
                omega

/-- Splitting a character list at a separator absent from both prefixes
is unambiguous. -/
lemma append_colon_inj : ∀ (a : List Char) {b : List Char} (c : List Char) {d : List Char},
    ':' ∉ a → ':' ∉ c → a ++ ':' :: b = c ++ ':' :: d → a = c ∧ b = d := by
  intro a
  induction a with
  | nil =>
    intro b c d _ hc h
    cases c with
    | nil => simpa using h
    | cons y ys =>
      simp only [List.nil_append, List.cons_append, List.cons.injEq] at h
      exact absurd (h.1 ▸ List.mem_cons_self y ys) (h.1 ▸ hc)
  | cons x xs ih =>
    intro b c d ha hc h
    cases c with
    | nil =>
      simp only [List.cons_append, List.nil_append, List.cons.injEq] at h
      exact absurd (h.1 ▸ List.mem_cons_self x xs) (by rw [h.1] at ha; exact ha)
    | cons y ys =>
      simp only [List.cons_append, List.cons.injEq] at h
      have ha2 : ':' ∉ xs := fun hm => ha (List.mem_cons_of_mem _ hm)
      have hc2 : ':' ∉ ys := fun hm => hc (List.mem_cons_of_mem _ hm)
      obtain ⟨h1, h2⟩ := ih ys ha2 hc2 h.2
      exact ⟨by rw [h.1, h1], h2⟩

/-- The `"{pkg}:{version}"` cache key determines package and version when
neither contains a colon. -/
lemma colon_key_inj {p v p2 v2 : String} (hp : noColon p) (_hv : noColon v)
    (hp2 : noColon p2) (_hv2 : noColon v2)
    (h : p ++ ":" ++ v = p2 ++ ":" ++ v2) : p = p2 ∧ v = v2 := by
  have hdata : p.data ++ ':' :: v.data = p2.data ++ ':' :: v2.data := by
    have := congrArg String.data h
    simpa using this
  have hp3 : ':' ∉ p.data := hp
  have hp4 : ':' ∉ p2.data := hp2
  obtain ⟨h1, h2⟩ := append_colon_inj p.data p2.data hp3 hp4 hdata
  exact ⟨String.ext h1, String.ext h2⟩

/-- Master invariant lemma for the unbounded remote build.  Under the
hypotheses that every package reachable in the effective graph has a
successful dependency listing at its effective version (`H1`), every
reachable non-root package has a nonempty version listing (`H2`), and all
reachable names and effective versions are colon-free (`H3`, making the
`"{pkg}:{version}"` cache key unambiguous), the loop never aborts, ends
with distinct store keys, keeps existing entries, absorbs every stacked
node, is closed under effective dependencies, contains only nodes
reachable from the initial visited set or stack, and issues exactly one
dependency-listing request per store key. -/
lemma buildRealFuel_master (r : Registry) (root rootVer : String)
    (H1 : ∀ n, RReachable r root rootVer n →
      ∃ l, fetchDepsApi r n (effVer r root rootVer n) = .ok l)
    (H2 : ∀ n, RReachable r root rootVer n → n ≠ root →
      ∃ v vs, fetchVersionsApi r n = .ok (v :: vs))
    (H3 : ∀ n, RReachable r root rootVer n →
      noColon n ∧ noColon (effVer r root rootVer n)) :
    ∀ fuel stack visited store lc dc log out,
      buildRealFuel r none fuel stack visited store lc dc log = some out →
      root ∈ visited →
      visited = (store.map (·.1)).reverse →
      visited.Nodup →
      (∀ n ∈ visited, RReachable r root rootVer n) →
      (∀ e ∈ stack, RReachable r root rootVer e.1
        ∧ (e.1 ∉ visited → e.2.1 = effVer r root rootVer e.1)) →
      (∀ kv ∈ lc, latestOf r kv.1 = some kv.2) →
      (∀ kv ∈ dc, ∃ n, n ∈ visited ∧ kv.1 = n ++ ":" ++ effVer r root rootVer n
        ∧ kv.2 = effDeps r root rootVer n) →
      (∀ n ∈ visited, ∀ d ∈ effDeps r root rootVer n,
        d ∈ visited ∨ d ∈ stack.map (·.1)) →
      (log.depsRequests.map (·.1) = store.map (·.1)) →
      ∃ st lg, out = .ok (st, lg)
        ∧ (st.map (·.1)).Nodup
        ∧ (∀ pr ∈ store, pr ∈ st)
        ∧ (∀ e ∈ stack, e.1 ∈ st.map (·.1))
        ∧ (∀ n ∈ st.map (·.1), ∀ d ∈ effDeps r root rootVer n, d ∈ st.map (·.1))
        ∧ (∀ n ∈ st.map (·.1), n ∈ visited
            ∨ ∃ e ∈ stack, Relation.ReflTransGen (RDependsOn r root rootVer) e.1 n)
        ∧ lg.depsRequests.map (·.1) = st.map (·.1) := by
  intro fuel
  induction fuel with
  | zero =>
    intro stack visited store lc dc log out h
    exact absurd h (by simp [buildRealFuel])
  | succ fuel ih =>
    intro stack visited store lc dc log out h hroot hv hnd hvr hstack hlc hdc hcl hlog
    match stack with
    | [] =>
      simp only [buildRealFuel, Option.some.injEq] at h
      subst h
      have hmemv : ∀ n, n ∈ visited ↔ n ∈ store.map (·.1) := by
        intro n
        rw [hv, List.mem_reverse]
      refine ⟨store, log, rfl, ?_, fun pr hp => hp,
        fun e he => absurd he (List.not_mem_nil e), ?_, ?_, hlog⟩
      · rw [hv, List.nodup_reverse] at hnd
        exact hnd
      · intro n hn d hd
        rcases hcl n ((hmemv n).mpr hn) d hd with h1 | h1
        · exact (hmemv d).mp h1
        · simp at h1
      · intro n hn
        exact Or.inl ((hmemv n).mpr hn)
    | (node, ver, depth) :: rest =>
      simp only [buildRealFuel] at h
      obtain ⟨hnodeR, hnodeV⟩ := hstack _ (List.mem_cons_self _ _)
      have hreststack : ∀ e ∈ rest, RReachable r root rootVer e.1
          ∧ (e.1 ∉ visited → e.2.1 = effVer r root rootVer e.1) :=
        fun e he => hstack e (List.mem_cons_of_mem _ he)
      by_cases hvis : node ∈ visited
      · rw [if_pos hvis] at h
        have hcl1 : ∀ n ∈ visited, ∀ d ∈ effDeps r root rootVer n,
            d ∈ visited ∨ d ∈ rest.map (·.1) := by
          intro n hn d hd
          rcases hcl n hn d hd with h1 | h1
          · exact Or.inl h1
          · rcases List.mem_cons.mp h1 with h1 | h1
            · exact Or.inl (h1 ▸ hvis)
            · exact Or.inr h1
        obtain ⟨st, lg, hout, A, B, C, D, E, F⟩ :=
          ih rest visited store lc dc log out h hroot hv hnd hvr hreststack hlc hdc hcl1 hlog
        refine ⟨st, lg, hout, A, B, ?_, D, ?_, F⟩
        · intro e he
          rcases List.mem_cons.mp he with he | he
          · have hkey : node ∈ store.map (·.1) := by
              rw [hv, List.mem_reverse] at hvis
              exact hvis
            rcases List.mem_map.mp hkey with ⟨pr, hp, hpe⟩
            rw [he]
            exact hpe ▸ List.mem_map_of_mem _ (B pr hp)
          · exact C e he
        · intro n hn
          rcases E n hn with h1 | ⟨e, he, hr⟩
          · exact Or.inl h1
          · exact Or.inr ⟨e, List.mem_cons_of_mem _ he, hr⟩
      · rw [if_neg hvis] at h
        have hver : ver = effVer r root rootVer node := hnodeV hvis
        rcases fetch_dependencies_cases r node ver dc with
          ⟨vdeps, hc, hf⟩ | ⟨e0, hc, ha, hf⟩ | ⟨ds, hc, ha, hf⟩
        · -- a cache hit for an unvisited node is impossible: its key
          -- would name an already visited package
          exfalso
          obtain ⟨n1, hn1v, hkey, _⟩ := hdc _ (assocFind_mem_pair _ _ _ hc)
          have h3n := H3 node hnodeR
          have h3n1 := H3 n1 (hvr n1 hn1v)
          have := colon_key_inj h3n1.1 h3n1.2 h3n.1 h3n.2 (by rw [← hkey, hver])
          exact hvis (this.1 ▸ hn1v)
        · -- the dependency fetch of a reachable node cannot fail
          exfalso
          obtain ⟨l, hl⟩ := H1 node hnodeR
          rw [← hver] at hl
          rw [hl] at ha
          exact absurd ha (by simp)
        · -- fresh successful dependency fetch
          have hdeps : depNamesOfList ds = effDeps r root rootVer node := by
            rw [hver] at ha
            simp only [effDeps, depNamesOf, ha]
          have hstop : stopAtDepth none depth = false := rfl
          rcases hP : pushDeps r (depth + 1) (depNamesOfList ds) lc
            with ⟨es, lc1, vreqs, warns⟩
          simp only [hf, hP, hstop, Bool.false_eq_true, if_false] at h
          obtain ⟨P1, P2, P3, P4⟩ := pushDeps_spec r (depth + 1) (depNamesOfList ds) lc hlc
          rw [hP] at P1 P2 P3 P4
          dsimp only at P1 P2 P3 P4
          have hroot1 : root ∈ node :: visited := List.mem_cons_of_mem _ hroot
          have hv1 : node :: visited
              = ((store ++ [(node, depNamesOfList ds)]).map (·.1)).reverse := by
            simp [hv]
          have hnd1 : (node :: visited).Nodup := List.nodup_cons.mpr ⟨hvis, hnd⟩
          have hvr1 : ∀ n ∈ node :: visited, RReachable r root rootVer n := by
            intro n hn
            rcases List.mem_cons.mp hn with hn | hn
            · exact hn ▸ hnodeR
            · exact hvr n hn
          have hstack1 : ∀ e ∈ es.reverse ++ rest, RReachable r root rootVer e.1
              ∧ (e.1 ∉ node :: visited → e.2.1 = effVer r root rootVer e.1) := by
            intro e he
            rcases List.mem_append.mp he with he | he
            · obtain ⟨ha1, ha2, _⟩ := P3 e (List.mem_reverse.mp he)
              rw [hdeps] at ha1
              have heR : RReachable r root rootVer e.1 :=
                Relation.ReflTransGen.tail hnodeR ha1
              refine ⟨heR, ?_⟩
              intro hnm
              have hne : e.1 ≠ root := by
                intro hcon
                exact hnm (hcon ▸ hroot1)
              simp only [effVer, if_neg hne, ha2]
              rfl
            · obtain ⟨ha1, ha2⟩ := hreststack e he
              refine ⟨ha1, ?_⟩
              intro hnm
              exact ha2 fun hm => hnm (List.mem_cons_of_mem _ hm)
          have hdc1 : ∀ kv ∈ dc ++ [(node ++ ":" ++ ver, depNamesOfList ds)],
              ∃ n, n ∈ node :: visited
                ∧ kv.1 = n ++ ":" ++ effVer r root rootVer n
                ∧ kv.2 = effDeps r root rootVer n := by
            intro kv hkv
            rcases List.mem_append.mp hkv with hkv | hkv
            · obtain ⟨n, hn1, hn2, hn3⟩ := hdc kv hkv
              exact ⟨n, List.mem_cons_of_mem _ hn1, hn2, hn3⟩
            · simp only [List.mem_singleton] at hkv
              refine ⟨node, List.mem_cons_self _ _, ?_, ?_⟩
              · rw [hkv, hver]
              · rw [hkv, hdeps]
          have hcl1 : ∀ n ∈ node :: visited, ∀ d ∈ effDeps r root rootVer n,
              d ∈ node :: visited ∨ d ∈ (es.reverse ++ rest).map (·.1) := by
            intro n hn d hd
            have hmemstack : ∀ x, x ∈ es.map (·.1) → x ∈ (es.reverse ++ rest).map (·.1) := by
              intro x hx
              rcases List.mem_map.mp hx with ⟨e, he, hex⟩
              exact List.mem_map.mpr ⟨e,
                List.mem_append.mpr (Or.inl (List.mem_reverse.mpr he)), hex⟩
            rcases List.mem_cons.mp hn with hn | hn
            · subst hn
              by_cases hdroot : d = root
              · exact Or.inl (hdroot ▸ hroot1)
              · have hdR : RReachable r root rootVer d :=
                  Relation.ReflTransGen.tail hnodeR hd
                have hvs := H2 d hdR hdroot
                rw [← hdeps] at hd
                exact Or.inr (hmemstack d (P4 d hd hvs))
            · rcases hcl n hn d hd with h1 | h1
              · exact Or.inl (List.mem_cons_of_mem _ h1)
              · rcases List.mem_cons.mp h1 with h1 | h1
                · exact Or.inl (h1 ▸ List.mem_cons_self _ _)
                · rcases List.mem_map.mp h1 with ⟨e, he, hex⟩
                  exact Or.inr (List.mem_map.mpr
                    ⟨e, List.mem_append.mpr (Or.inr he), hex⟩)
          have hlog1 :
              (log.depsRequests ++ [(node, ver)]).map (·.1)
                = (store ++ [(node, depNamesOfList ds)]).map (·.1) := by
            simp [hlog]
          obtain ⟨st, lg, hout, A, B, C, D, E, F⟩ :=
            ih (es.reverse ++ rest) (node :: visited)
              (store ++ [(node, depNamesOfList ds)]) lc1
              (dc ++ [(node ++ ":" ++ ver, depNamesOfList ds)]) _ out h
              hroot1 hv1 hnd1 hvr1 hstack1 P1 hdc1 hcl1 hlog1
          have hnodeout : (node, depNamesOfList ds) ∈ st :=
            B _ (List.mem_append.mpr (Or.inr (List.mem_singleton.mpr rfl)))
          refine ⟨st, lg, hout, A, ?_, ?_, D, ?_, F⟩
          · intro pr hp
            exact B pr (List.mem_append.mpr (Or.inl hp))
          · intro e he
            rcases List.mem_cons.mp he with he | he
            · rw [he]
              exact List.mem_map_of_mem _ hnodeout
            · exact C e (List.mem_append.mpr (Or.inr he))
          · intro n hn
            rcases E n hn with h1 | ⟨e, he, hr⟩
            · rcases List.mem_cons.mp h1 with h1 | h1
              · exact Or.inr ⟨(node, ver, depth), List.mem_cons_self _ _,
                  h1 ▸ Relation.ReflTransGen.refl⟩
              · exact Or.inl h1
            · rcases List.mem_append.mp he with he | he
              · obtain ⟨ha1, _, _⟩ := P3 e (List.mem_reverse.mp he)
                rw [hdeps] at ha1
                refine Or.inr ⟨(node, ver, depth), List.mem_cons_self _ _, ?_⟩
                exact Relation.ReflTransGen.head ha1 hr
              · exact Or.inr ⟨e, List.mem_cons_of_mem _ he, hr⟩

/-! ## Claim theorems -/

/-- Claim C1: for every acyclic input graph and every run with no depth
bound, the builder — test variant over a pre-loaded adjacency map, or
remote variant over a registry — records every package reachable from the
root by direct-dependency edges exactly once, however many parents
reference it: the resulting GraphStore has exactly one entry per
reachable package (`Nodup` keys, membership iff reachability), and each
recorded package's dependencies are resolved exactly once (for the remote
variant, exactly one dependency-listing request per recorded package).
The remote half assumes the fetches involved succeed and that names and
versions are colon-free, so the `"{pkg}:{version}"` cache key is
unambiguous. -/
theorem buildVisitsReachableExactlyOnce :
    (∀ (g : Store) (start : String), Acyclic g →
      ((build_test_graph start g none).map (·.1)).Nodup
      ∧ (∀ n, n ∈ (build_test_graph start g none).map (·.1)
          ↔ ReachableFrom g start n)
      ∧ (∀ n, ReachableFrom g start n →
          ((build_test_graph start g none).map (·.1)).count n = 1))
    ∧ (∀ (r : Registry) (root rootVer : String),
        (∀ n, ¬ Relation.TransGen (RDependsOn r root rootVer) n n) →
        (∀ n, RReachable r root rootVer n →
          ∃ l, fetchDepsApi r n (effVer r root rootVer n) = .ok l) →
        (∀ n, RReachable r root rootVer n → n ≠ root →
          ∃ v vs, fetchVersionsApi r n = .ok (v :: vs)) →
        (∀ n, RReachable r root rootVer n →
          noColon n ∧ noColon (effVer r root rootVer n)) →
        ∃ st lg, build_real_graph r root rootVer none = .ok (st, lg)
          ∧ (st.map (·.1)).Nodup
          ∧ (∀ n, n ∈ st.map (·.1) ↔ RReachable r root rootVer n)
          ∧ (∀ n, RReachable r root rootVer n →
              (lg.depsRequests.map (·.1)).count n = 1)) := by
  constructor
  · intro g start _hacyc
    have heq := build_test_graph_eq g none start
    obtain ⟨A, B, C, D, E⟩ := buildTestFuel_master g (testFuelBound g)
      [(start, 0)] [] [] _ heq rfl (by simp) (by intro n hn; simp at hn)
    have hstartmem : start ∈ (build_test_graph start g none).map (·.1) :=
      C (start, 0) (List.mem_singleton.mpr rfl)
    have hiff : ∀ n, n ∈ (build_test_graph start g none).map (·.1)
        ↔ ReachableFrom g start n := by
      intro n
      constructor
      · intro hn
        rcases E n hn with h1 | ⟨e, he, hr⟩
        · simp at h1
        · rw [List.mem_singleton] at he
          rw [he] at hr
          exact hr
      · intro hr
        exact rtg_mem_of_closed hstartmem (fun a ha b hb => D a ha b hb) hr
    exact ⟨A, hiff, fun n hr => List.count_eq_one_of_mem A ((hiff n).mpr hr)⟩
  · intro r root rootVer _hacyc H1 H2 H3
    have heffroot : effVer r root rootVer root = rootVer := by simp [effVer]
    have hrootR : RReachable r root rootVer root := Relation.ReflTransGen.refl
    obtain ⟨l, hl0⟩ := H1 root hrootR
    rw [heffroot] at hl0
    have hdeps : depNamesOfList l = effDeps r root rootVer root := by
      simp only [effDeps, heffroot, depNamesOf, hl0]
    -- peel the first loop iteration by hand
    have h := build_real_graph_eq r root rootVer none
    obtain ⟨fuel0, hfuel⟩ : ∃ k, realFuelBound r root = k + 1 := ⟨_, rfl⟩
    rw [hfuel] at h
    simp only [buildRealFuel] at h
    rw [if_neg (List.not_mem_nil root)] at h
    have hf : fetch_dependencies_cached r root rootVer []
        = (.ok (depNamesOfList l),
            [(root ++ ":" ++ rootVer, depNamesOfList l)], [(root, rootVer)]) := by
      simp only [fetch_dependencies_cached, assocFind, hl0]
      rfl
    have hstop : stopAtDepth none 0 = false := rfl
    rcases hP : pushDeps r (0 + 1) (depNamesOfList l) []
      with ⟨es, lc1, vreqs, warns⟩
    simp only [hf, hP, hstop, Bool.false_eq_true, if_false] at h
    obtain ⟨P1, P2, P3, P4⟩ := pushDeps_spec r (0 + 1) (depNamesOfList l) []
      (by intro kv hkv; simp at hkv)
    rw [hP] at P1 P2 P3 P4
    dsimp only at P1 P2 P3 P4
    have hroot1 : root ∈ [root] := List.mem_singleton.mpr rfl
    have hstack1 : ∀ e ∈ es.reverse ++ [], RReachable r root rootVer e.1
        ∧ (e.1 ∉ [root] → e.2.1 = effVer r root rootVer e.1) := by
      intro e he
      rw [List.append_nil] at he
      obtain ⟨ha1, ha2, _⟩ := P3 e (List.mem_reverse.mp he)
      rw [hdeps] at ha1
      have heR : RReachable r root rootVer e.1 :=
        Relation.ReflTransGen.tail hrootR ha1
      refine ⟨heR, ?_⟩
      intro hnm
      have hne : e.1 ≠ root := fun hcon => hnm (hcon ▸ hroot1)
      simp only [effVer, if_neg hne, ha2]
      rfl
    have hdc1 : ∀ kv ∈ [(root ++ ":" ++ rootVer, depNamesOfList l)],
        ∃ n, n ∈ [root] ∧ kv.1 = n ++ ":" ++ effVer r root rootVer n
          ∧ kv.2 = effDeps r root rootVer n := by
      intro kv hkv
      rw [List.mem_singleton] at hkv
      refine ⟨root, hroot1, ?_, ?_⟩
      · rw [hkv, heffroot]
      · rw [hkv]
        exact hdeps
    have hcl1 : ∀ n ∈ [root], ∀ d ∈ effDeps r root rootVer n,
        d ∈ [root]
          ∨ d ∈ (es.reverse ++ ([] : List (String × String × Nat))).map (·.1) := by
      intro n hn d hd
      rw [List.mem_singleton] at hn
      rw [hn] at hd
      by_cases hdroot : d = root
      · exact Or.inl (hdroot ▸ hroot1)
      · have hdR : RReachable r root rootVer d :=
          Relation.ReflTransGen.tail hrootR hd
        have hvs := H2 d hdR hdroot
        rw [← hdeps] at hd
        have := P4 d hd hvs
        rcases List.mem_map.mp this with ⟨e, he, hex⟩
        exact Or.inr (List.mem_map.mpr
          ⟨e, List.mem_append.mpr (Or.inl (List.mem_reverse.mpr he)), hex⟩)
    obtain ⟨st, lg, hout, A, B, C, D, E, F⟩ :=
      buildRealFuel_master r root rootVer H1 H2 H3 fuel0 (es.reverse ++ [])
        [root] [(root, depNamesOfList l)] lc1
        [(root ++ ":" ++ rootVer, depNamesOfList l)] _ _ h
        hroot1 (by simp) (by simp) (by
          intro n hn
          rw [List.mem_singleton] at hn
          exact hn ▸ hrootR)
        hstack1 P1 hdc1 hcl1 (by simp)
    have hrootmem : root ∈ st.map (·.1) :=
      List.mem_map_of_mem _ (B (root, depNamesOfList l) (List.mem_singleton.mpr rfl))
    have hiff : ∀ n, n ∈ st.map (·.1) ↔ RReachable r root rootVer n := by
      intro n
      constructor
      · intro hn
        rcases E n hn with h1 | ⟨e, he, hr⟩
        · rw [List.mem_singleton] at h1
          exact h1 ▸ hrootR
        · rw [List.append_nil] at he
          obtain ⟨ha1, _, _⟩ := P3 e (List.mem_reverse.mp he)
          rw [hdeps] at ha1
          exact Relation.ReflTransGen.head ha1 hr
      · intro hr
        exact rtg_mem_of_closed hrootmem (fun a ha b hb => D a ha b hb) hr
    exact ⟨st, lg, hout, A, hiff, fun n hr => by
      rw [F]
      exact List.count_eq_one_of_mem A ((hiff n).mpr hr)⟩

lemma diamond_dep_rank : ∀ a b, DependsOn diamondGraph a b →
    diamondRank b < diamondRank a := by
  intro a b h
  unfold DependsOn at h
  by_cases h1 : "A" = a
  · rw [← h1] at h ⊢
    have he : resolve diamondGraph "A" = ["B", "C"] := by decide
    rw [he] at h
    simp only [List.mem_cons, List.not_mem_nil, or_false] at h
    rcases h with h | h <;> rw [h] <;> decide
  · by_cases h2 : "B" = a
    · rw [← h2] at h ⊢
      have he : resolve diamondGraph "B" = ["D"] := by decide
      rw [he] at h
      simp only [List.mem_singleton] at h
      rw [h]
      decide
    · by_cases h3 : "C" = a
      · rw [← h3] at h ⊢
        have he : resolve diamondGraph "C" = ["D"] := by decide
        rw [he] at h
        simp only [List.mem_singleton] at h
        rw [h]
        decide
      · by_cases h4 : "D" = a
        · rw [← h4] at h
          have he : resolve diamondGraph "D" = [] := by decide
          rw [he] at h
          simp at h
        · have he : resolve diamondGraph a = [] := by
            simp only [resolve, diamondGraph, assocFind,
              if_neg h1, if_neg h2, if_neg h3, if_neg h4]
            rfl
          rw [he] at h
          simp at h

lemma diamondGraph_acyclic : Acyclic diamondGraph :=
  no_cycle_of_rank diamondRank diamond_dep_rank

lemma diamond_remote_bound : ∀ n, RReachable diamondRegistry "A" "0" n →
    n ∈ (["A", "B", "C", "D"] : List String) := by
  intro n h
  refine rtg_mem_of_closed (by decide) ?_ h
  intro a ha b hb
  have hdec : ∀ a2 ∈ (["A", "B", "C", "D"] : List String),
      ∀ b2 ∈ effDeps diamondRegistry "A" "0" a2,
        b2 ∈ (["A", "B", "C", "D"] : List String) := by decide
  exact hdec a ha b hb

lemma diamond_H1 : ∀ n, RReachable diamondRegistry "A" "0" n →
    ∃ l, fetchDepsApi diamondRegistry n (effVer diamondRegistry "A" "0" n) = .ok l := by
  intro n h
  have hb := diamond_remote_bound n h
  fin_cases hb
  · exact ⟨_, rfl⟩
  · exact ⟨_, rfl⟩
  · exact ⟨_, rfl⟩
  · exact ⟨_, rfl⟩

lemma diamond_H2 : ∀ n, RReachable diamondRegistry "A" "0" n → n ≠ "A" →
    ∃ v vs, fetchVersionsApi diamondRegistry n = .ok (v :: vs) := by
  intro n h hne
  have hb := diamond_remote_bound n h
  fin_cases hb
  · exact absurd rfl hne
  · exact ⟨"1", [], rfl⟩
  · exact ⟨"1", [], rfl⟩
  · exact ⟨"1", [], rfl⟩

lemma diamond_H3 : ∀ n, RReachable diamondRegistry "A" "0" n →
    noColon n ∧ noColon (effVer diamondRegistry "A" "0" n) := by
  intro n h
  have hb := diamond_remote_bound n h
  fin_cases hb <;> constructor <;> decide

lemma diamond_remote_rank : ∀ a b, RDependsOn diamondRegistry "A" "0" a b →
    diamondRank b < diamondRank a := by
  intro a b h
  unfold RDependsOn at h
  by_cases h1 : "A" = a
  · rw [← h1] at h ⊢
    have he : effDeps diamondRegistry "A" "0" "A" = ["B", "C"] := by decide
    rw [he] at h
    simp only [List.mem_cons, List.not_mem_nil, or_false] at h
    rcases h with h | h <;> rw [h] <;> decide
  · by_cases h2 : "B" = a
    · rw [← h2] at h ⊢
      have he : effDeps diamondRegistry "A" "0" "B" = ["D"] := by decide
      rw [he] at h
      simp only [List.mem_singleton] at h
      rw [h]
      decide
    · by_cases h3 : "C" = a
      · rw [← h3] at h ⊢
        have he : effDeps diamondRegistry "A" "0" "C" = ["D"] := by decide
        rw [he] at h
        simp only [List.mem_singleton] at h
        rw [h]
        decide
      · by_cases h4 : "D" = a
        · rw [← h4] at h
          have he : effDeps diamondRegistry "A" "0" "D" = [] := by decide
          rw [he] at h
          simp at h
        · have hne1 : (("A", "0") : String × String)
              ≠ (a, effVer diamondRegistry "A" "0" a) :=
            fun hh => h1 (congrArg Prod.fst hh)
          have hne2 : (("B", "1") : String × String)
              ≠ (a, effVer diamondRegistry "A" "0" a) :=
            fun hh => h2 (congrArg Prod.fst hh)
          have hne3 : (("C", "1") : String × String)
              ≠ (a, effVer diamondRegistry "A" "0" a) :=
            fun hh => h3 (congrArg Prod.fst hh)
          have hne4 : (("D", "1") : String × String)
              ≠ (a, effVer diamondRegistry "A" "0" a) :=
            fun hh => h4 (congrArg Prod.fst hh)
          have hnone : assocFind (a, effVer diamondRegistry "A" "0" a)
              diamondRegistry.depsTable = none := by
            have htab : diamondRegistry.depsTable
                = [(("A", "0"), .ok [⟨"B", none, false⟩, ⟨"C", none, false⟩])
                  , (("B", "1"), .ok [⟨"D", none, false⟩])
                  , (("C", "1"), .ok [⟨"D", none, false⟩])
                  , (("D", "1"), .ok [])] := rfl
            rw [htab]
            simp only [assocFind, if_neg hne1, if_neg hne2, if_neg hne3, if_neg hne4]
          have he : effDeps diamondRegistry "A" "0" a = [] := by
            simp only [effDeps, depNamesOf, fetchDepsApi, hnone]
            rfl
          rw [he] at h
          simp at h

lemma diamond_remote_acyclic :
    ∀ n, ¬ Relation.TransGen (RDependsOn diamondRegistry "A" "0") n n :=
  no_cycle_of_rank diamondRank diamond_remote_rank

/-- Witness for C1: both halves instantiated at the diamond, with the
acyclicity and success hypotheses discharged concretely. -/
theorem buildVisitsReachableExactlyOnce_witness :
    Acyclic diamondGraph
    ∧ ((build_test_graph "A" diamondGraph none).map (·.1)).Nodup
    ∧ ("D" ∈ (build_test_graph "A" diamondGraph none).map (·.1)
        ↔ ReachableFrom diamondGraph "A" "D")
    ∧ (∃ st lg, build_real_graph diamondRegistry "A" "0" none = .ok (st, lg)
        ∧ (st.map (·.1)).Nodup
        ∧ (∀ n, n ∈ st.map (·.1) ↔ RReachable diamondRegistry "A" "0" n)
        ∧ (∀ n, RReachable diamondRegistry "A" "0" n →
            (lg.depsRequests.map (·.1)).count n = 1)) := by
  refine ⟨diamondGraph_acyclic, ?_, ?_, ?_⟩
  · exact (buildVisitsReachableExactlyOnce.1 diamondGraph "A" diamondGraph_acyclic).1
  · exact (buildVisitsReachableExactlyOnce.1 diamondGraph "A"
      diamondGraph_acyclic).2.1 "D"
  · exact buildVisitsReachableExactlyOnce.2 diamondRegistry "A" "0"
      diamond_remote_acyclic diamond_H1 diamond_H2 diamond_H3

/-- Claim C2: a node whose depth has reached the bound still has its full
direct-dependency list recorded, but none of its dependencies are pushed
for expansion: every recorded entry carries exactly the node's resolved
dependency list, and with bound 1 on `A: B`, `B: C`, `C: D` both builders
record entries for `A` and `B` only, `B`'s list still containing `C`
while `C` gets no entry of its own. -/
theorem depthBoundRecordsFullList :
    (∀ (g : Store) (start : String) (md : Option Nat),
      ∀ pr ∈ build_test_graph start g md, pr.2 = resolve g pr.1)
    ∧ build_test_graph "A" [("A", ["B"]), ("B", ["C"]), ("C", ["D"])] (some 1)
        = [("A", ["B"]), ("B", ["C"])]
    ∧ (build_real_graph chainRegistry "A" "0" (some 1)).toOption.map (·.1)
        = some [("A", ["B"]), ("B", ["C"])] := by
  refine ⟨?_, by decide, by decide⟩
  intro g start md pr hpr
  have heq := build_test_graph_eq g md start
  exact buildTestFuel_entries g md (testFuelBound g) [(start, 0)] [] [] _ heq
    (by intro p hp; simp at hp) pr hpr

/-- Witness for C2: the general full-list statement applied to the entry
`("B", ["C"])` of the concrete bound-1 build. -/
theorem depthBoundRecordsFullList_witness :
    ("B", ["C"]) ∈ build_test_graph "A"
      [("A", ["B"]), ("B", ["C"]), ("C", ["D"])] (some 1)
    ∧ (("B", ["C"]) : String × List String).2
        = resolve [("A", ["B"]), ("B", ["C"]), ("C", ["D"])] "B" :=
  ⟨by decide, depthBoundRecordsFullList.1 _ "A" (some 1) _ (by decide)⟩

/-- Claim C3: the build traversal terminates on every finite input graph,
cycles included: the fuel `build_test_graph` allots always completes the
worklist loop, and on `A: B`, `B: A` the test builder terminates with
entries for both `A` and `B` (the second pop of the cyclic node is
discarded by the visited check). -/
theorem buildTerminatesOnCycles :
    (∀ (g : Store) (start : String) (md : Option Nat),
      buildTestFuel g md (testFuelBound g) [(start, 0)] [] []
        = some (build_test_graph start g md))
    ∧ build_test_graph "A" [("A", ["B"]), ("B", ["A"])] none
        = [("A", ["B"]), ("B", ["A"])] :=
  ⟨fun g start md => build_test_graph_eq g md start, by decide⟩

/-- Claim C8: in the test builder a node absent from the pre-loaded
adjacency map is no error: it resolves to the empty dependency list, is
recorded with that empty list, and the traversal continues. -/
theorem missingNodeResolvesEmpty :
    (∀ (g : Store) (n : String), n ∉ g.map (·.1) → resolve g n = [])
    ∧ build_test_graph "A" [("A", ["B"])] none = [("A", ["B"]), ("B", [])]
    ∧ ("B", []) ∈ build_test_graph "A" [("A", ["B"])] none :=
  ⟨fun g n h => resolve_eq_nil g n h, by decide, by decide⟩

/-- Witness for C8: the missing node `B` of the one-line graph. -/
theorem missingNodeResolvesEmpty_witness :
    "B" ∉ ([("A", ["B"])] : Store).map (·.1)
    ∧ resolve [("A", ["B"])] "B" = [] :=
  ⟨by decide, missingNodeResolvesEmpty.1 [("A", ["B"])] "B" (by decide)⟩

/-- Claim C7: when loading the test adjacency file, blank (empty after
trimming) lines are skipped, and a non-blank line with no colon aborts
the load with a FormatError naming the line's 1-based number; the result
is then an error, so no partial graph mapping is produced. -/
theorem loadRejectsColonlessLines :
    (∀ raw, load_test_graph raw = loadLines [] (linesOf raw).enum)
    ∧ (∀ (g : Store) (i : Nat) (l : String) (rest : List (Nat × String)),
        trimStr l = "" → loadLines g ((i, l) :: rest) = loadLines g rest)
    ∧ (∀ (g : Store) (i : Nat) (l : String) (rest : List (Nat × String)),
        trimStr l ≠ "" → splitOnceColon (trimStr l) = none →
        loadLines g ((i, l) :: rest) = .error (formatErrMsg (i + 1) (trimStr l)))
    ∧ load_test_graph "A: B\nbadline\nC: D" = .error (formatErrMsg 2 "badline") := by
  refine ⟨fun raw => rfl, ?_, ?_, by decide⟩
  · intro g i l rest h
    simp [loadLines, h]
  · intro g i l rest h1 h2
    simp [loadLines, h1, h2]

/-- Witness for C7: the blank-line rule and the colonless-line rule at
concrete lines. -/
theorem loadRejectsColonlessLines_witness :
    (trimStr "   " = ""
      ∧ loadLines [] [(0, "   "), (1, "A: B")] = loadLines [] [(1, "A: B")])
    ∧ (trimStr " badline " ≠ "" ∧ splitOnceColon (trimStr " badline ") = none
      ∧ loadLines [] [(1, " badline ")]
          = .error (formatErrMsg 2 (trimStr " badline "))) :=
  ⟨⟨by decide, loadRejectsColonlessLines.2.1 [] 0 "   " [(1, "A: B")] (by decide)⟩,
   ⟨by decide, by decide,
    loadRejectsColonlessLines.2.2.1 [] 1 " badline " [] (by decide) (by decide)⟩⟩

/-- Claim C4: the first time a node is printed it enters the renderer's
seen-set; a node already seen is still printed, immediately annotated as
a cycle, and its children are not expanded (the output is exactly the
node line plus the cycle line, with the seen-set unchanged), so the walk
terminates on that branch — as on the `A: B`, `B: A` graph rendered from
`A`. -/
theorem renderMarksAndStopsOnSeenNodes :
    (∀ (g : Store) (node pre : String) (last : Bool) (seen : List String)
        (depth : Nat) (md : Option Nat),
      node ∈ seen →
      print_ascii_tree g node pre last seen depth md
        = ([pre ++ (if last then "└── " else "├── ") ++ node,
            pre ++ "    (цикл: узел " ++ node ++ ")"], seen))
    ∧ (∀ (g : Store) (node pre : String) (last : Bool) (seen : List String)
        (depth : Nat) (md : Option Nat),
      node ∉ seen →
      node ∈ (print_ascii_tree g node pre last seen depth md).2)
    ∧ (print_ascii_tree [("A", ["B"]), ("B", ["A"])] "A" "" true [] 0 none).1
        = ["└── A", "    └── B", "        └── A", "            (цикл: узел A)"] := by
  refine ⟨?_, ?_, by decide⟩
  · intro g node pre last seen depth md h
    have heq := print_ascii_tree_eq g node pre last seen depth md
    rw [show renderFuelBound g = g.length + 1 from rfl] at heq
    simp only [renderFuel, if_pos h] at heq
    exact (Option.some.inj heq).symm
  · intro g node pre last seen depth md h
    have heq := print_ascii_tree_eq g node pre last seen depth md
    rw [show renderFuelBound g = g.length + 1 from rfl] at heq
    simp only [renderFuel, if_neg h] at heq
    by_cases hstop : stopAtDepth md depth
    · rw [if_pos hstop] at heq
      cases hfind : assocFind node g with
      | none =>
        simp only [hfind] at heq
        rw [← Option.some.inj heq]
        exact List.mem_cons_self _ _
      | some children =>
        simp only [hfind] at heq
        cases hE : children.isEmpty <;>
          · simp only [hE, Bool.false_eq_true, if_false, if_true] at heq
            rw [← Option.some.inj heq]
            exact List.mem_cons_self _ _
    · rw [if_neg hstop] at heq
      cases hfind : assocFind node g with
      | none =>
        simp only [hfind] at heq
        rw [← Option.some.inj heq]
        exact List.mem_cons_self _ _
      | some children =>
        simp only [hfind] at heq
        cases hk : renderKidsWith
            (fun n p l s d m => renderFuel g g.length n p l s d m)
            children (if last then pre ++ "    " else pre ++ "│   ")
            (node :: seen) (depth + 1) md with
        | none =>
          simp only [hk] at heq
          exact absurd heq (by simp)
        | some p2 =>
          obtain ⟨ls, s2⟩ := p2
          simp only [hk] at heq
          have hmono := renderKidsWith_mono _
            (fun n p l s d m ls3 s3 hh => renderFuel_mono g.length g n p l s d m ls3 s3 hh)
            _ _ _ _ _ _ _ hk node (List.mem_cons_self _ _)
          rw [← Option.some.inj heq]
          exact hmono

/-- Witness for C4: a seen node is re-printed with the cycle annotation
and no descent, and a fresh node enters the seen-set. -/
theorem renderMarksAndStopsOnSeenNodes_witness :
    ("A" ∈ (["A"] : List String)
      ∧ print_ascii_tree [("A", ["B"])] "A" "  " true ["A"] 0 none
          = (["  └── A", "      (цикл: узел A)"], ["A"]))
    ∧ ("B" ∉ (["A"] : List String)
      ∧ "B" ∈ (print_ascii_tree [("A", ["B"])] "B" "" true ["A"] 0 none).2) :=
  ⟨⟨by decide, renderMarksAndStopsOnSeenNodes.1 [("A", ["B"])] "A" "  " true
      ["A"] 0 none (by decide)⟩,
   ⟨by decide, renderMarksAndStopsOnSeenNodes.2.1 [("A", ["B"])] "B" "" true
      ["A"] 0 none (by decide)⟩⟩

/-- Claim C5: at the configured render depth bound, a node with recorded
children prints exactly one depth-truncation placeholder line and does
not descend; the decision ignores the seen-set and only the node itself
(never its children) is marked seen — and with bound 0 on `A: B C` the
output is the `A` line plus the placeholder, with no `B` or `C` lines. -/
theorem renderDepthTruncation :
    (∀ (g : Store) (node pre : String) (last : Bool) (seen : List String)
        (depth : Nat) (md : Option Nat) (children : List String),
      node ∉ seen → stopAtDepth md depth = true →
      assocFind node g = some children → children ≠ [] →
      print_ascii_tree g node pre last seen depth md
        = ([pre ++ (if last then "└── " else "├── ") ++ node,
            pre ++ "    ... (ограничение глубины)"], node :: seen))
    ∧ (print_ascii_tree [("A", ["B", "C"])] "A" "" true [] 0 (some 0)).1
        = ["└── A", "    ... (ограничение глубины)"] := by
  refine ⟨?_, by decide⟩
  intro g node pre last seen depth md children h hstop hfind hne
  have heq := print_ascii_tree_eq g node pre last seen depth md
  rw [show renderFuelBound g = g.length + 1 from rfl] at heq
  have hE : children.isEmpty = false := by
    cases children with
    | nil => exact absurd rfl hne
    | cons c cs => rfl
  simp only [renderFuel, if_neg h, if_pos hstop, hfind, hE,
    Bool.false_eq_true, if_false] at heq
  exact (Option.some.inj heq).symm

/-- Witness for C5: the truncation rule at bound 0 on `A: B C`. -/
theorem renderDepthTruncation_witness :
    ("A" ∉ ([] : List String) ∧ stopAtDepth (some 0) 0 = true
      ∧ assocFind "A" ([("A", ["B", "C"])] : Store) = some ["B", "C"]
      ∧ (["B", "C"] : List String) ≠ [])
    ∧ print_ascii_tree [("A", ["B", "C"])] "A" "" true [] 0 (some 0)
        = (["└── A", "    ... (ограничение глубины)"], ["A"]) :=
  ⟨⟨by decide, by decide, by decide, by decide⟩,
   renderDepthTruncation.1 [("A", ["B", "C"])] "A" "" true [] 0 (some 0)
     ["B", "C"] (by decide) (by decide) (by decide) (by decide)⟩

/-- Claim C10: the renderer is total on every finite GraphStore and root:
the fuel `print_ascii_tree` allots (one unit per unseen key, plus one)
always suffices, and a node with no entry in the GraphStore — such as an
unexpanded depth-bound leaf — is printed as a leaf with no children and
no error, merely entering the seen-set. -/
theorem rendererTotalTreatsMissingAsLeaf :
    (∀ (g : Store) (node pre : String) (last : Bool) (seen : List String)
        (depth : Nat) (md : Option Nat),
      ∃ out, renderFuel g (g.length + 1) node pre last seen depth md = some out
        ∧ print_ascii_tree g node pre last seen depth md = out)
    ∧ (∀ (g : Store) (node pre : String) (last : Bool) (seen : List String)
        (depth : Nat) (md : Option Nat),
      assocFind node g = none → node ∉ seen →
      print_ascii_tree g node pre last seen depth md
        = ([pre ++ (if last then "└── " else "├── ") ++ node], node :: seen)) := by
  constructor
  · intro g node pre last seen depth md
    exact ⟨print_ascii_tree g node pre last seen depth md,
      print_ascii_tree_eq g node pre last seen depth md, rfl⟩
  · intro g node pre last seen depth md hfind h
    have heq := print_ascii_tree_eq g node pre last seen depth md
    rw [show renderFuelBound g = g.length + 1 from rfl] at heq
    by_cases hstop : stopAtDepth md depth
    · simp only [renderFuel, if_neg h, if_pos hstop, hfind] at heq
      exact (Option.some.inj heq).symm
    · simp only [renderFuel, if_neg h, if_neg hstop, hfind] at heq
      exact (Option.some.inj heq).symm

/-- Witness for C10: totality and the missing-node leaf rule on a store
that does not mention node `Q`. -/
theorem rendererTotalTreatsMissingAsLeaf_witness :
    (∃ out, renderFuel [("A", ["Q"])] 2 "Q" "" true [] 0 none = some out
      ∧ print_ascii_tree [("A", ["Q"])] "Q" "" true [] 0 none = out)
    ∧ (assocFind "Q" ([("A", ["Q"])] : Store) = none ∧ "Q" ∉ ([] : List String)
      ∧ print_ascii_tree [("A", ["Q"])] "Q" "" true [] 0 none
          = (["└── Q"], ["Q"])) :=
  ⟨rendererTotalTreatsMissingAsLeaf.1 [("A", ["Q"])] "Q" "" true [] 0 none,
   ⟨by decide, by decide,
    rendererTotalTreatsMissingAsLeaf.2 [("A", ["Q"])] "Q" "" true [] 0 none
      (by decide) (by decide)⟩⟩

/-- Claim C9: the latest-version lookup returns exactly the first entry
of the registry's version listing, fails with the NotFoundError when the
listing is empty, and caches successful results so that a whole build
issues at most one versions request per package name. -/
theorem latestVersionFirstListedCached :
    (∀ (r : Registry) (pkg v : String) (lc : List (String × String)),
      assocFind pkg lc = some v →
      fetch_latest_version_cached r pkg lc = (.ok v, lc, []))
    ∧ (∀ (r : Registry) (pkg v : String) (vs : List String)
        (lc : List (String × String)),
      assocFind pkg lc = none → fetchVersionsApi r pkg = .ok (v :: vs) →
      fetch_latest_version_cached r pkg lc = (.ok v, lc ++ [(pkg, v)], [pkg]))
    ∧ (∀ (r : Registry) (pkg : String) (lc : List (String × String)),
      assocFind pkg lc = none → fetchVersionsApi r pkg = .ok [] →
      fetch_latest_version_cached r pkg lc = (.error (notFoundMsg pkg), lc, [pkg]))
    ∧ (∀ (r : Registry) (pkg0 ver0 p v : String) (vs : List String)
        (md : Option Nat) (st : Store) (lg : BuildLog),
      build_real_graph r pkg0 ver0 md = .ok (st, lg) →
      fetchVersionsApi r p = .ok (v :: vs) →
      lg.versionRequests.count p ≤ 1) := by
  refine ⟨?_, ?_, ?_, ?_⟩
  · intro r pkg v lc h
    simp only [fetch_latest_version_cached, h]
  · intro r pkg v vs lc h1 h2
    simp only [fetch_latest_version_cached, h1, h2]
  · intro r pkg lc h1 h2
    simp only [fetch_latest_version_cached, h1, h2]
  · intro r pkg0 ver0 p v vs md st lg hb hp
    have heq := build_real_graph_eq r pkg0 ver0 md
    rw [hb] at heq
    have hcount := buildRealFuel_version_count r md p v vs hp (realFuelBound r pkg0)
      [(pkg0, ver0, 0)] [] [] [] [] ⟨[], [], []⟩ st lg heq
    simpa [assocFind] using hcount

/-- Witness for C9: the three `fetch_latest_version_cached` rules and the
once-per-build bound, at the diamond registry. -/
theorem latestVersionFirstListedCached_witness :
    (assocFind "X" ([("X", "1")] : List (String × String)) = some "1"
      ∧ fetch_latest_version_cached diamondRegistry "X" [("X", "1")]
          = (.ok "1", [("X", "1")], []))
    ∧ (assocFind "B" ([] : List (String × String)) = none
      ∧ fetchVersionsApi diamondRegistry "B" = .ok ["1"]
      ∧ fetch_latest_version_cached diamondRegistry "B" []
          = (.ok "1", [("B", "1")], ["B"]))
    ∧ (fetchVersionsApi ⟨[("Y", .ok [])], []⟩ "Y" = .ok []
      ∧ fetch_latest_version_cached ⟨[("Y", .ok [])], []⟩ "Y" []
          = (.error (notFoundMsg "Y"), [], ["Y"]))
    ∧ (build_real_graph diamondRegistry "A" "0" none
        = .ok ([("A", ["B", "C"]), ("C", ["D"]), ("D", []), ("B", ["D"])],
            ⟨[("A", "0"), ("C", "1"), ("D", "1"), ("B", "1")],
             ["B", "C", "D"], []⟩)
      ∧ (["B", "C", "D"] : List String).count "D" ≤ 1) :=
  ⟨⟨by decide, latestVersionFirstListedCached.1 diamondRegistry "X" "1"
      [("X", "1")] (by decide)⟩,
   ⟨by decide, by decide, latestVersionFirstListedCached.2.1 diamondRegistry "B" "1"
      [] [] (by decide) (by decide)⟩,
   ⟨by decide, latestVersionFirstListedCached.2.2.1 ⟨[("Y", .ok [])], []⟩ "Y"
      [] (by decide) (by decide)⟩,
   ⟨by decide, latestVersionFirstListedCached.2.2.2 diamondRegistry "A" "0" "D" "1"
      [] none [("A", ["B", "C"]), ("C", ["D"]), ("D", []), ("B", ["D"])]
      ⟨[("A", "0"), ("C", "1"), ("D", "1"), ("B", "1")], ["B", "C", "D"], []⟩
      (by decide) (by decide)⟩⟩

/-- Claim C6: in the remote builder a dependency-listing failure for any
popped node aborts the whole build with that error (and every build error
originates there — version lookups never abort), while a version-lookup
failure only logs a warning and skips that one dependency's expansion:
the dependency stays in the parent's recorded list, gets no entry of its
own, and the siblings still resolve. -/
theorem remoteErrorAsymmetry :
    (∀ (r : Registry) (pkg ver : String) (md : Option Nat) (e : String),
      build_real_graph r pkg ver md = .error e →
      ∃ p v, fetchDepsApi r p v = .error e)
    ∧ (∀ (r : Registry) (pkg ver : String) (md : Option Nat) (e : String),
      fetchDepsApi r pkg ver = .error e →
      build_real_graph r pkg ver md = .error e)
    ∧ (∀ (r : Registry) (depth1 : Nat) (d e : String) (rest : List String)
        (lc : List (String × String)),
      (fetch_latest_version_cached r d lc).1 = .error e →
      (pushDeps r depth1 (d :: rest) lc).1
          = (pushDeps r depth1 rest (fetch_latest_version_cached r d lc).2.1).1
        ∧ versionWarnMsg d e ∈ (pushDeps r depth1 (d :: rest) lc).2.2.2)
    ∧ (build_real_graph fatalRegistry "R" "1" none
        = .error "crates.io вернул статус 500 для S/2"
      ∧ (build_real_graph warnRegistry "R" "1" none).toOption.map (·.1)
          = some [("R", ["X", "Y", "Z"]), ("Z", []), ("X", [])]
      ∧ (build_real_graph warnRegistry "R" "1" none).toOption.map (·.2.warnings)
          = some [versionWarnMsg "Y" (notFoundMsg "Y")]) := by
  refine ⟨?_, ?_, ?_, by decide, by decide, by decide⟩
  · intro r pkg ver md e h
    have heq := build_real_graph_eq r pkg ver md
    rw [h] at heq
    exact buildRealFuel_error_origin r md (realFuelBound r pkg)
      [(pkg, ver, 0)] [] [] [] [] ⟨[], [], []⟩ e heq
  · intro r pkg ver md e h
    have heq := build_real_graph_eq r pkg ver md
    obtain ⟨k, hk⟩ : ∃ k, realFuelBound r pkg = k + 1 := ⟨_, rfl⟩
    rw [hk] at heq
    simp only [buildRealFuel] at heq
    rw [if_neg (List.not_mem_nil pkg)] at heq
    have hf : fetch_dependencies_cached r pkg ver [] = (.error e, [], [(pkg, ver)]) := by
      simp only [fetch_dependencies_cached, assocFind, h]
    simp only [hf] at heq
    exact (Option.some.inj heq).symm
  · intro r depth1 d e rest lc h
    rcases h4 : fetch_latest_version_cached r d lc with ⟨res, lc1, reqs⟩
    rw [h4] at h
    dsimp only at h
    subst h
    rcases hP : pushDeps r depth1 rest lc1 with ⟨es, lc2, rs, ws⟩
    have hsum : pushDeps r depth1 (d :: rest) lc
        = (es, lc2, reqs ++ rs, versionWarnMsg d e :: ws) := by
      simp only [pushDeps, h4, hP]
    refine ⟨?_, ?_⟩
    · rw [hsum]
    · rw [hsum]
      exact List.mem_cons_self _ _

/-- Witness for C6: the three conditional rules at concrete failing
registries. -/
theorem remoteErrorAsymmetry_witness :
    (build_real_graph fatalRegistry "R" "1" none
        = .error "crates.io вернул статус 500 для S/2"
      ∧ ∃ p v, fetchDepsApi fatalRegistry p v
          = .error "crates.io вернул статус 500 для S/2")
    ∧ (fetchDepsApi ⟨[], [(("R", "1"), .error "boom")]⟩ "R" "1" = .error "boom"
      ∧ build_real_graph ⟨[], [(("R", "1"), .error "boom")]⟩ "R" "1" none
          = .error "boom")
    ∧ ((fetch_latest_version_cached warnRegistry "Y" []).1
          = .error (notFoundMsg "Y")
      ∧ versionWarnMsg "Y" (notFoundMsg "Y")
          ∈ (pushDeps warnRegistry 1 ["Y", "Z"] []).2.2.2) :=
  ⟨⟨by decide, remoteErrorAsymmetry.1 fatalRegistry "R" "1" none _ (by decide)⟩,
   ⟨by decide, remoteErrorAsymmetry.2.1 ⟨[], [(("R", "1"), .error "boom")]⟩ "R" "1"
      none "boom" (by decide)⟩,
   ⟨by decide, (remoteErrorAsymmetry.2.2.1 warnRegistry 1 "Y" (notFoundMsg "Y")
      ["Z"] [] (by decide)).2⟩⟩
